import Mathlib

/-!
Verification of the sample-path flow-metrics engine (`spath/metrics.py`).

Modelling conventions:
* `pd.Timestamp` is modelled as a rational number of hours, so the source's
  `(t2 - t1).total_seconds() / 3600.0` becomes plain subtraction `t2 - t1`.
* Python `float` accumulators (the area `A` and the derived metrics) are
  modelled as exact rationals; Python `int` counters as `Int`.
* `np.nan` (the undefined sentinel for `L`, `Lambda`, `w`) is modelled as
  `none : Option ℚ`; a defined value `x` is `some x`.
* The `IndexError` that `compute_sample_path_metrics` raises when given a
  non-empty event list and an empty `sample_times` list is modelled by an
  `Option` result (`none` = raise).
* The `ValueError` raised by `_resolve_freq` (and propagated by the driver)
  is modelled by `Except String`.
* The pandas calendar primitives used in calendar mode (`Timestamp.floor`,
  `pd.date_range`, `to_offset` validity and addition) are external library
  code, not part of this repository; they are abstracted as an explicit
  `CalendarLib` record and an `isNative : String → Bool` predicate that the
  driver and frequency resolver take as parameters.
-/

/-- An event `(time, dN, a)`: timestamp, signed jump in occupancy, and the
arrival mark (number of arrivals at that instant). -/
structure Event where
  time : ℚ
  dN : Int
  a : Int
deriving DecidableEq

/-- Running state of the integrator sweep in `compute_sample_path_metrics`:
occupancy `N`, accumulated area `A`, cumulative arrivals and departures, and
the cursor `prev` (last time integrated up to). -/
structure SPState where
  N : Int
  A : ℚ
  cumArr : Int
  cumDep : Int
  prev : ℚ
deriving DecidableEq

/-- The per-observation-instant row of outputs of the integrator:
`L`, `Lambda`, `w` (possibly the NaN sentinel, i.e. `none`), `N`, `A`,
cumulative arrivals `arr` and cumulative departures `dep`. -/
structure Metrics where
  L : Option ℚ
  Lam : Option ℚ
  w : Option ℚ
  N : Int
  A : ℚ
  arr : Int
  dep : Int
deriving DecidableEq

/-- Processing of one event inside the while-loop of
`compute_sample_path_metrics` (lines 77–91): integrate the rectangle up to
the event time when the span is positive, then apply the jump, accumulate
the arrival mark, and accumulate the derived departures
`dep = a - dN` clamped at zero. -/
def stepEvent (st : SPState) (e : Event) : SPState :=
  let dt := e.time - st.prev
  let st1 := if 0 < dt then { st with A := st.A + (st.N : ℚ) * dt, prev := e.time } else st
  { st1 with
    N := st1.N + e.dN
    cumArr := st1.cumArr + e.a
    cumDep := st1.cumDep + max (e.a - e.dN) 0 }

/-- The tail integration from `prev` to the observation instant `t`
(lines 93–97). -/
def stepTail (st : SPState) (t : ℚ) : SPState :=
  let dt := t - st.prev
  if 0 < dt then { st with A := st.A + (st.N : ℚ) * dt, prev := t } else st

/-- The metric block reported at observation instant `t` (lines 99–111). -/
def report (t0 t : ℚ) (st : SPState) : Metrics :=
  let elapsed := t - t0
  { L := if 0 < elapsed then some (st.A / elapsed) else none
    Lam := if 0 < elapsed then some ((st.cumArr : ℚ) / elapsed) else none
    w := if 0 < st.cumArr then some (st.A / (st.cumArr : ℚ)) else none
    N := st.N
    A := st.A
    arr := st.cumArr
    dep := st.cumDep }

/-- The inner `while i < len(events) and events[i][0] <= t` loop (line 76):
consume the leading events with time `≤ t`, folding `stepEvent`, and return
the new state together with the unconsumed events. -/
def processEvents (evs : List Event) (t : ℚ) (st : SPState) : SPState × List Event :=
  match evs with
  | [] => (st, [])
  | e :: es => if e.time ≤ t then processEvents es t (stepEvent st e) else (st, e :: es)

/-- One iteration of the `for t in T` loop, minus the report: process events
up to `t`, then integrate the tail to `t`. -/
def advance (t : ℚ) (p : SPState × List Event) : SPState × List Event :=
  let q := processEvents p.2 t p.1
  (stepTail q.1 t, q.2)

/-- The `for t in T` loop of `compute_sample_path_metrics` (lines 74–111),
emitting one `Metrics` row per observation instant. -/
def runLoop (t0 : ℚ) (ts : List ℚ) (evs : List Event) (st : SPState) : List Metrics :=
  match ts with
  | [] => []
  | t :: rest =>
    let p := advance t (st, evs)
    report t0 t p.1 :: runLoop t0 rest p.2 p.1

/-- Sorting of the event list by timestamp (line 60); Python's `sorted` with
a key is a stable sort, modelled by insertion sort on the time order. -/
def sortEvents (evs : List Event) : List Event :=
  List.insertionSort (fun e1 e2 => e1.time ≤ e2.time) evs

/-- Sorting of the observation-time list (lines 47 and 61). -/
def sortTimes (ts : List ℚ) : List ℚ :=
  List.insertionSort (fun a b : ℚ => a ≤ b) ts

/-- Initial running state at window start `t0` (lines 64–69). -/
def initState (t0 : ℚ) : SPState :=
  { N := 0, A := 0, cumArr := 0, cumDep := 0, prev := t0 }

/-- `compute_sample_path_metrics` (lines 10–122).  Returns the sorted
observation times together with the per-instant metric rows; `none` models
the `IndexError` on `T[0]` when the event list is non-empty but the
observation list is empty. -/
def compute_sample_path_metrics (events : List Event) (sample_times : List ℚ) :
    Option (List ℚ × List Metrics) :=
  if events.isEmpty then some (sortTimes sample_times, [])
  else
    match sortTimes sample_times with
    | [] => none
    | t0 :: rest => some (t0 :: rest, runLoop t0 (t0 :: rest) (sortEvents events) (initState t0))

/-- Sum of the `dN` fields of a list of events. -/
def dNSum (l : List Event) : Int := (l.map Event.dN).sum

/-- Sum of the arrival marks of a list of events. -/
def arrSum (l : List Event) : Int := (l.map Event.a).sum

/-- Sum of the clamped derived departures of a list of events. -/
def depSum (l : List Event) : Int := (l.map (fun e => max (e.a - e.dN) 0)).sum

/-- Event prepping of the driver (lines 301–304): zero the arrival mark of
every event strictly before `t0`, keep `dN` (and the time) unchanged. -/
def prepEvents (t0 : ℚ) (evs : List Event) : List Event :=
  evs.map fun e => if e.time < t0 then { e with a := 0 } else e

/-- The schedule flavor of the driver (`mode` field). -/
inductive SPMode where
  | event : SPMode
  | calendar : SPMode
deriving DecidableEq

/-- The structured result of the driver (`FlowMetricsResult`, lines 127–186).
The seven aligned numeric arrays are bundled as one list of `Metrics` rows;
`t0 = tn = none` models `pd.NaT`. -/
structure FlowMetricsResult where
  events : List Event
  times : List ℚ
  metrics : List Metrics
  mode : SPMode
  freq : Option String
  t0 : Option ℚ
  tn : Option ℚ
deriving DecidableEq

/-- The empty `FlowMetricsResult` returned for empty events or an empty
observation schedule (lines 227–241 and 282–296). -/
def emptyResult (mode : SPMode) (freq : Option String) : FlowMetricsResult :=
  { events := [], times := [], metrics := [], mode := mode, freq := freq,
    t0 := none, tn := none }

/-- The error message of `_resolve_freq` (lines 357–360), naming the
offending value and the accepted forms. -/
def unknownFreqMessage (bucket : String) : String :=
  "Unknown frequency \x27" ++ bucket ++
    "\x27. Use pandas alias (e.g., \x27D\x27,\x27W-MON\x27,\x27MS\x27,\x27QS-JAN\x27,\x27YS-JAN\x27) " ++
    "or one of \x7bday, week, month, quarter, year\x7d."

/-- Python's `str.lower()` for the ASCII strings in play, as an executable
list-of-characters definition. -/
def pyLower (s : String) : String := String.mk (s.data.map Char.toLower)

/-- Python's `str.upper()` for the ASCII strings in play. -/
def pyUpper (s : String) : String := String.mk (s.data.map Char.toUpper)

/-- Python's `str.strip()`: drop leading and trailing whitespace. -/
def pyStrip (s : String) : String :=
  String.mk (((s.data.dropWhile Char.isWhitespace).reverse.dropWhile Char.isWhitespace).reverse)

/-- `_resolve_freq` (lines 327–360): try the native pandas alias parse first
(the external `to_offset` validity test is the parameter `isNative`), then
the case-insensitive human vocabulary, otherwise fail. -/
def resolve_freq (isNative : String → Bool) (bucket : String)
    (week_anchor quarter_anchor year_anchor : String) : Except String String :=
  let b := pyStrip bucket
  if isNative b then Except.ok b
  else
    let bl := pyLower b
    if bl = "day" ∨ bl = "d" then Except.ok "D"
    else if bl = "week" ∨ bl = "w" then Except.ok ("W-" ++ pyUpper week_anchor)
    else if bl = "month" ∨ bl = "m" then Except.ok "MS"
    else if bl = "quarter" ∨ bl = "q" then Except.ok ("QS-" ++ pyUpper quarter_anchor)
    else if bl = "year" ∨ bl = "y" then Except.ok ("YS-" ++ pyUpper year_anchor)
    else Except.error (unknownFreqMessage bucket)

/-- The pandas calendar primitives used by the calendar mode of the driver
(`Timestamp.floor`, `pd.date_range`, offset addition).  They are external
library code, abstracted as explicit parameters. -/
structure CalendarLib where
  floorTo : ℚ → String → ℚ
  dateRange : ℚ → ℚ → String → List ℚ
  addOffset : ℚ → String → ℚ

/-- The packaging tail of the driver (lines 281–323): on an empty schedule
return the empty result; otherwise take `t0`/`tn` as the first/last entries
of the built schedule, prep the events, invoke the integrator and bundle
its outputs. -/
def packageResult (es : List Event) (obs : List ℚ) (mode : SPMode)
    (freq : Option String) : FlowMetricsResult :=
  match obs with
  | [] => emptyResult mode freq
  | o :: os =>
    let prepped := prepEvents o es
    match compute_sample_path_metrics prepped (o :: os) with
    | none => emptyResult mode freq
    | some (T, ms) =>
      { events := prepped, times := T, metrics := ms, mode := mode, freq := freq,
        t0 := some o, tn := some (List.getLastD os o) }

/-- `compute_finite_window_flow_metrics` (lines 191–323): the consolidated
driver.  `freq = none` is event mode, `freq = some bucket` is calendar mode;
`lib` and `isNative` abstract the external pandas calendar primitives. -/
def compute_finite_window_flow_metrics (lib : CalendarLib) (isNative : String → Bool)
    (events : List Event) (freq : Option String) (start stop : Option ℚ)
    (include_next_boundary : Bool)
    (week_anchor quarter_anchor year_anchor : String) :
    Except String FlowMetricsResult :=
  if events.isEmpty then
    Except.ok (emptyResult (if freq.isNone then SPMode.event else SPMode.calendar) freq)
  else
    let es := sortEvents events
    let evTimes := es.map Event.time
    match freq with
    | none =>
      let ws := start.getD (evTimes.headD 0)
      let we := stop.getD (evTimes.getLastD 0)
      let obs0 := ws :: evTimes.filter (fun t => decide (ws < t) && decide (t ≤ we))
      let obs1 := if we = obs0.getLastD 0 then obs0 else obs0 ++ [we]
      let obs := sortTimes obs1.dedup
      Except.ok (packageResult es obs SPMode.event none)
    | some bucket =>
      match resolve_freq isNative bucket week_anchor quarter_anchor year_anchor with
      | Except.error msg => Except.error msg
      | Except.ok rf =>
        let sa := lib.floorTo (start.getD (evTimes.headD 0)) rf
        let ea := lib.floorTo (stop.getD (evTimes.getLastD 0)) rf
        let bs0 := lib.dateRange sa ea rf
        let bs :=
          if include_next_boundary then
            let bs1 := if bs0.isEmpty then [sa] else bs0
            bs1 ++ [lib.addOffset (bs1.getLastD 0) rf]
          else bs0
        Except.ok (packageResult es bs SPMode.calendar (some rf))

/-- A trivial concrete instantiation of the external calendar primitives,
used to evaluate the driver at concrete inputs. -/
def trivLib : CalendarLib :=
  { floorTo := fun t _ => t
    dateRange := fun a _ _ => [a]
    addOffset := fun t _ => t + 1 }

/-- Claim C2: on the concrete scenario
events `[(t0, +2, 2), (t0+1h, +1, 1), (t0+2h, -3, 0)]` (with `t0 = 0` hours)
and sample times `[t0, t0+1h, t0+2h, t0+3h]`, the integrator reports
`N = [2, 3, 0, 0]`, `A = [0, 2, 5, 5]`, cumulative arrivals `[2, 3, 3, 3]`,
cumulative departures `[0, 0, 3, 3]`, and at `t0+1h` the metrics
`L = 2`, `Lambda = 3`, `w = 2/3`. -/
theorem c2_concrete_scenario :
    ∃ ms, compute_sample_path_metrics
        [⟨0, 2, 2⟩, ⟨1, 1, 1⟩, ⟨2, -3, 0⟩] [0, 1, 2, 3] = some ([0, 1, 2, 3], ms) ∧
      ms.map Metrics.N = [2, 3, 0, 0] ∧
      ms.map Metrics.A = [0, 2, 5, 5] ∧
      ms.map Metrics.arr = [2, 3, 3, 3] ∧
      ms.map Metrics.dep = [0, 0, 3, 3] ∧
      (ms.get? 1).map Metrics.L = some (some 2) ∧
      (ms.get? 1).map Metrics.Lam = some (some 3) ∧
      (ms.get? 1).map Metrics.w = some (some (2/3)) := by
  refine ⟨_, rfl, ?_, ?_, ?_, ?_, ?_, ?_, ?_⟩ <;>
    norm_num [sortEvents, List.insertionSort, List.orderedInsert, runLoop, advance,
      processEvents, stepEvent, stepTail, report, initState]

/-- Claim C8: when an event's derived departure count `a - dN` is negative,
the per-event processing step clamps that event's departure contribution to
zero (cumulative departures unchanged) while the occupancy jump and the
arrival accumulation happen normally; no exception is involved. -/
theorem c8_negative_departure_clamped (st : SPState) (e : Event)
    (h : e.a - e.dN < 0) :
    (stepEvent st e).cumDep = st.cumDep ∧
    (stepEvent st e).N = st.N + e.dN ∧
    (stepEvent st e).cumArr = st.cumArr + e.a := by
  have hmax : max (e.a - e.dN) 0 = 0 := max_eq_right h.le
  unfold stepEvent
  by_cases hdt : 0 < e.time - st.prev <;> simp [hdt, hmax]

/-- Witness for C8 at a concrete state and event with `a - dN = 1 - 2 < 0`. -/
theorem c8_negative_departure_clamped_witness :
    ((⟨1, 2, 1⟩ : Event).a - (⟨1, 2, 1⟩ : Event).dN < 0) ∧
    (stepEvent (initState 0) ⟨1, 2, 1⟩).cumDep = (initState 0).cumDep ∧
    (stepEvent (initState 0) ⟨1, 2, 1⟩).N = (initState 0).N + (2 : Int) ∧
    (stepEvent (initState 0) ⟨1, 2, 1⟩).cumArr = (initState 0).cumArr + (1 : Int) :=
  ⟨by decide, c8_negative_departure_clamped (initState 0) ⟨1, 2, 1⟩ (by decide)⟩

/-- Claim C7 (amended): for every Driver invocation with a NON-EMPTY event
log and a frequency string matching neither a native calendar-offset alias
nor, case-insensitively, the vocabulary day/d/week/w/month/m/quarter/q/
year/y, the call fails immediately with the descriptive "unknown frequency"
error naming the offending value and the accepted forms, and the error is
propagated to the caller.  (With an empty event log the driver returns an
empty result before the frequency is ever inspected.) -/
theorem c7_invalid_frequency_fails (lib : CalendarLib) (isNative : String → Bool)
    (events : List Event) (bucket : String) (start stop : Option ℚ)
    (inb : Bool) (wa qa ya : String)
    (hne : events ≠ [])
    (hnative : isNative (pyStrip bucket) = false)
    (hvocab : pyLower (pyStrip bucket) ∉
      ["day", "d", "week", "w", "month", "m", "quarter", "q", "year", "y"]) :
    compute_finite_window_flow_metrics lib isNative events (some bucket) start stop
        inb wa qa ya = Except.error (unknownFreqMessage bucket) := by
  simp only [List.mem_cons, List.not_mem_nil, or_false, not_or] at hvocab
  obtain ⟨h1, h2, h3, h4, h5, h6, h7, h8, h9, h10⟩ := hvocab
  have hrf : resolve_freq isNative bucket wa qa ya =
      Except.error (unknownFreqMessage bucket) := by
    simp [resolve_freq, hnative, h1, h2, h3, h4, h5, h6, h7, h8, h9, h10]
  cases events with
  | nil => exact absurd rfl hne
  | cons e es =>
    simp [compute_finite_window_flow_metrics, hrf]

/-- Witness for C7 at a concrete invocation: one event, frequency string
"bogus", a native-alias test that rejects everything. -/
theorem c7_invalid_frequency_fails_witness :
    ([⟨0, 1, 1⟩] : List Event) ≠ [] ∧
    (fun _ : String => false) (pyStrip "bogus") = false ∧
    pyLower (pyStrip "bogus") ∉
      ["day", "d", "week", "w", "month", "m", "quarter", "q", "year", "y"] ∧
    compute_finite_window_flow_metrics trivLib (fun _ => false) [⟨0, 1, 1⟩]
        (some "bogus") none none false "SUN" "JAN" "JAN" =
      Except.error (unknownFreqMessage "bogus") :=
  ⟨List.cons_ne_nil _ _, rfl, by decide,
    c7_invalid_frequency_fails trivLib (fun _ => false) [⟨0, 1, 1⟩] "bogus"
      none none false "SUN" "JAN" "JAN" (List.cons_ne_nil _ _) rfl (by decide)⟩

/-- Counterexample to C7 as stated: with an EMPTY event log and the invalid
frequency string "bogus" (not a native alias, not in the vocabulary), the
driver does not fail — it returns a well-formed empty result, because the
empty-events check precedes frequency resolution. -/
theorem c7_counterexample :
    compute_finite_window_flow_metrics trivLib (fun _ => false) [] (some "bogus")
        none none false "SUN" "JAN" "JAN" =
      Except.ok (emptyResult SPMode.calendar (some "bogus")) ∧
    (fun _ : String => false) (pyStrip "bogus") = false ∧
    pyLower (pyStrip "bogus") ∉
      ["day", "d", "week", "w", "month", "m", "quarter", "q", "year", "y"] :=
  ⟨rfl, rfl, by decide⟩

/-- Unfolding of one iteration of the observation loop. -/
theorem runLoop_cons (t0 t : ℚ) (rest : List ℚ) (evs : List Event) (st : SPState) :
    runLoop t0 (t :: rest) evs st =
      report t0 t (advance t (st, evs)).1 ::
        runLoop t0 rest (advance t (st, evs)).2 (advance t (st, evs)).1 := rfl

/-- The sorted event list is a permutation of the input. -/
theorem sortEvents_perm (l : List Event) : List.Perm (sortEvents l) l :=
  List.perm_insertionSort _ l

/-- The sorted observation list is a permutation of the input. -/
theorem sortTimes_perm (l : List ℚ) : List.Perm (sortTimes l) l :=
  List.perm_insertionSort _ l

/-- The event list produced by `sortEvents` is sorted by time. -/
theorem sortEvents_sorted (l : List Event) :
    List.Sorted (fun e1 e2 : Event => e1.time ≤ e2.time) (sortEvents l) := by
  have _ : IsTotal Event (fun e1 e2 : Event => e1.time ≤ e2.time) :=
    ⟨fun a b => le_total a.time b.time⟩
  have _ : IsTrans Event (fun e1 e2 : Event => e1.time ≤ e2.time) :=
    ⟨fun _ _ _ h1 h2 => le_trans h1 h2⟩
  exact List.sorted_insertionSort _ l

/-- The time list produced by `sortTimes` is sorted. -/
theorem sortTimes_sorted (l : List ℚ) :
    List.Sorted (fun a b : ℚ => a ≤ b) (sortTimes l) := by
  have _ : IsTotal ℚ (fun a b : ℚ => a ≤ b) := ⟨fun a b => le_total a b⟩
  have _ : IsTrans ℚ (fun a b : ℚ => a ≤ b) := ⟨fun _ _ _ h1 h2 => le_trans h1 h2⟩
  exact List.sorted_insertionSort _ l

/-- Integrating the tail up to a time not later than the cursor changes
nothing (the `dt_h > 0` guard fails). -/
theorem stepTail_of_le (st : SPState) (t : ℚ) (h : t ≤ st.prev) :
    stepTail st t = st := by
  unfold stepTail
  rw [if_neg]
  rw [not_lt, sub_nonpos]
  exact h

/-- Processing an event not later than the cursor adds no area and leaves
the cursor in place. -/
theorem stepEvent_A_of_le (st : SPState) (e : Event) (h : e.time ≤ st.prev) :
    (stepEvent st e).A = st.A ∧ (stepEvent st e).prev = st.prev := by
  have hneg : ¬ (0 < e.time - st.prev) := by rw [not_lt, sub_nonpos]; exact h
  simp [stepEvent, hneg]

/-- During the first loop iteration (observation instant `t0`, cursor at
`t0`) the event-processing loop adds no area and keeps the cursor at `t0`. -/
theorem processEvents_A_prev (t0 : ℚ) (evs : List Event) :
    ∀ st : SPState, st.prev = t0 →
      (processEvents evs t0 st).1.A = st.A ∧ (processEvents evs t0 st).1.prev = t0 := by
  induction evs with
  | nil => intro st h; simp [processEvents, h]
  | cons e es ih =>
    intro st h
    by_cases hle : e.time ≤ t0
    · have hA := stepEvent_A_of_le st e (by rw [h]; exact hle)
      have hrec := ih (stepEvent st e) (by rw [hA.2, h])
      simp only [processEvents, if_pos hle]
      exact ⟨hrec.1.trans hA.1, hrec.2⟩
    · simp [processEvents, hle, h]

/-- Advancing to the instant the cursor already stands at adds no area. -/
theorem advance_A_prev_self (t0 : ℚ) (evs : List Event) (st : SPState)
    (h : st.prev = t0) :
    (advance t0 (st, evs)).1.A = st.A ∧ (advance t0 (st, evs)).1.prev = t0 := by
  have hp := processEvents_A_prev t0 evs st h
  show (stepTail (processEvents evs t0 st).1 t0).A = st.A ∧
    (stepTail (processEvents evs t0 st).1 t0).prev = t0
  rw [stepTail_of_le _ _ hp.2.ge]
  exact hp

/-- If every event lies strictly after `t`, the event-processing loop does
not move. -/
theorem processEvents_all_gt (t : ℚ) (evs : List Event) (st : SPState)
    (h : ∀ e ∈ evs, t < e.time) : processEvents evs t st = (st, evs) := by
  cases evs with
  | nil => rfl
  | cons e es =>
    have hgt := h e (List.mem_cons_self e es)
    simp [processEvents, not_le.mpr hgt]

/-- Claim C10: for every non-empty event list and non-empty observation
list, the reported `A` at the first (earliest) observation time is exactly
`0`: events at or before `t0` contribute no area (non-positive spans are
skipped) and the tail span at `t0` has zero width. -/
theorem c10_A_zero_at_first_observation (events : List Event) (ts : List ℚ)
    (hne : events ≠ []) (hts : ts ≠ []) :
    ∃ T m ms, compute_sample_path_metrics events ts = some (T, m :: ms) ∧ m.A = 0 := by
  cases events with
  | nil => exact absurd rfl hne
  | cons e es =>
    cases hS : sortTimes ts with
    | nil =>
      exfalso
      have hp := sortTimes_perm ts
      rw [hS] at hp
      exact hts hp.symm.eq_nil
    | cons t0 rest =>
      have hrun : compute_sample_path_metrics (e :: es) ts =
          some (t0 :: rest, runLoop t0 (t0 :: rest) (sortEvents (e :: es)) (initState t0)) := by
        simp [compute_sample_path_metrics, hS]
      refine ⟨t0 :: rest, _, _, by rw [hrun, runLoop_cons], ?_⟩
      show (report t0 t0 (advance t0 (initState t0, sortEvents (e :: es))).1).A = 0
      have hA := advance_A_prev_self t0 (sortEvents (e :: es)) (initState t0) rfl
      show (advance t0 (initState t0, sortEvents (e :: es))).1.A = 0
      exact hA.1

/-- Witness for C10 at a concrete input. -/
theorem c10_A_zero_at_first_observation_witness :
    ([⟨0, 1, 1⟩] : List Event) ≠ [] ∧ ([0, 2] : List ℚ) ≠ [] ∧
    ∃ T m ms, compute_sample_path_metrics [⟨0, 1, 1⟩] [0, 2] = some (T, m :: ms) ∧
      m.A = 0 :=
  ⟨List.cons_ne_nil _ _, List.cons_ne_nil _ _,
    c10_A_zero_at_first_observation [⟨0, 1, 1⟩] [0, 2]
      (List.cons_ne_nil _ _) (List.cons_ne_nil _ _)⟩

/-- Claim C5 (amended): for every non-empty event log, an Integrator
invocation whose observation set is the single instant `t0` produces
`L` and `Lambda` equal to the undefined sentinel and `A = 0` without
raising; moreover `w` is the undefined sentinel and
`Arrivals = Departures = 0` unless an event lies AT OR BEFORE that instant
(the original claim's "coincides exactly with that instant" is too weak:
events strictly before `t0` are also folded in at `t0`). -/
theorem c5_single_instant (events : List Event) (t0 : ℚ) (hne : events ≠ []) :
    ∃ m, compute_sample_path_metrics events [t0] = some ([t0], [m]) ∧
      m.L = none ∧ m.Lam = none ∧ m.A = 0 ∧
      ((∀ e ∈ events, t0 < e.time) → m.arr = 0 ∧ m.dep = 0 ∧ m.w = none) := by
  cases events with
  | nil => exact absurd rfl hne
  | cons e es =>
    have hS : sortTimes [t0] = [t0] := by
      simp [sortTimes, List.insertionSort]
    have hrun : compute_sample_path_metrics (e :: es) [t0] =
        some ([t0], runLoop t0 [t0] (sortEvents (e :: es)) (initState t0)) := by
      simp [compute_sample_path_metrics, hS]
    have hloop : runLoop t0 [t0] (sortEvents (e :: es)) (initState t0) =
        [report t0 t0 (advance t0 (initState t0, sortEvents (e :: es))).1] := rfl
    refine ⟨report t0 t0 (advance t0 (initState t0, sortEvents (e :: es))).1,
      by rw [hrun, hloop], ?_, ?_, ?_, ?_⟩
    · simp [report]
    · simp [report]
    · exact (advance_A_prev_self t0 (sortEvents (e :: es)) (initState t0) rfl).1
    · intro hall
      have hall' : ∀ x ∈ sortEvents (e :: es), t0 < x.time := by
        intro x hx
        exact hall x ((sortEvents_perm (e :: es)).mem_iff.mp hx)
      have hpe : processEvents (sortEvents (e :: es)) t0 (initState t0) =
          (initState t0, sortEvents (e :: es)) :=
        processEvents_all_gt t0 _ _ hall'
      have hadv : (advance t0 (initState t0, sortEvents (e :: es))).1 = initState t0 := by
        show stepTail (processEvents (sortEvents (e :: es)) t0 (initState t0)).1 t0 =
          initState t0
        rw [hpe]
        exact stepTail_of_le _ _ (le_of_eq rfl)
      rw [hadv]
      exact ⟨rfl, rfl, by simp [report, initState]⟩

/-- Witness for C5: single event strictly after the instant. -/
theorem c5_single_instant_witness :
    ([⟨1, 1, 1⟩] : List Event) ≠ [] ∧
    ∃ m, compute_sample_path_metrics [⟨1, 1, 1⟩] [0] = some ([0], [m]) ∧
      m.L = none ∧ m.Lam = none ∧ m.A = 0 ∧
      ((∀ e ∈ ([⟨1, 1, 1⟩] : List Event), (0 : ℚ) < e.time) →
        m.arr = 0 ∧ m.dep = 0 ∧ m.w = none) :=
  ⟨List.cons_ne_nil _ _, c5_single_instant [⟨1, 1, 1⟩] 0 (List.cons_ne_nil _ _)⟩

/-- Counterexample to C5 as stated: event log `[(-1, +1, 1)]`, observation
set `{0}`.  No event coincides with the instant `0` (the event time is
`-1`), yet the reported cumulative arrivals are `1` (not `0`) and `w` is
`0` (not the undefined sentinel), because events at or before `t0` are
folded in at the first observation instant. -/
theorem c5_counterexample :
    compute_sample_path_metrics [⟨-1, 1, 1⟩] [0] =
      some ([0], [⟨none, none, some 0, 1, 0, 1, 0⟩]) ∧
    (-1 : ℚ) ≠ 0 ∧ (1 : Int) ≠ 0 ∧ some (0 : ℚ) ≠ none := by
  refine ⟨?_, by norm_num, by norm_num, by simp⟩
  norm_num [compute_sample_path_metrics, sortTimes, sortEvents, List.insertionSort,
    List.orderedInsert, runLoop, advance, processEvents, stepEvent, stepTail,
    report, initState]

/-- Explicit form of `stepTail` when the span is positive. -/
theorem stepTail_pos (st : SPState) (t : ℚ) (h : 0 < t - st.prev) :
    stepTail st t = ⟨st.N, st.A + (st.N : ℚ) * (t - st.prev), st.cumArr, st.cumDep, t⟩ := by
  simp [stepTail, h]

/-- Explicit form of `stepEvent` when the span up to the event is positive. -/
theorem stepEvent_pos (st : SPState) (e : Event) (h : 0 < e.time - st.prev) :
    stepEvent st e = ⟨st.N + e.dN, st.A + (st.N : ℚ) * (e.time - st.prev),
      st.cumArr + e.a, st.cumDep + max (e.a - e.dN) 0, e.time⟩ := by
  simp [stepEvent, h]

/-- The cursor after `stepTail st t` with `st.prev ≤ t` is exactly `t`. -/
theorem stepTail_prev (st : SPState) (t : ℚ) (h : st.prev ≤ t) :
    (stepTail st t).prev = t := by
  by_cases hp : 0 < t - st.prev
  · rw [stepTail_pos st t hp]
  · rw [stepTail_of_le st t (sub_nonpos.mp (not_lt.mp hp))]
    exact le_antisymm h (sub_nonpos.mp (not_lt.mp hp))

/-- `stepEvent` keeps the cursor below any bound dominating both the old
cursor and the event time. -/
theorem stepEvent_prev_le (st : SPState) (e : Event) (t : ℚ)
    (ht : st.prev ≤ t) (he : e.time ≤ t) : (stepEvent st e).prev ≤ t := by
  unfold stepEvent
  by_cases h : 0 < e.time - st.prev <;> simp [h] <;> assumption

/-- The event loop keeps the cursor below the observation instant. -/
theorem processEvents_prev_le (t : ℚ) (evs : List Event) :
    ∀ st : SPState, st.prev ≤ t → (processEvents evs t st).1.prev ≤ t := by
  induction evs with
  | nil => intro st h; exact h
  | cons e es ih =>
    intro st h
    by_cases hle : e.time ≤ t
    · simp only [processEvents, if_pos hle]
      exact ih (stepEvent st e) (stepEvent_prev_le st e t h hle)
    · simp only [processEvents, if_neg hle]
      exact h

/-- After `advance t`, the cursor stands exactly at `t`. -/
theorem advance_prev (t : ℚ) (evs : List Event) (st : SPState) (h : st.prev ≤ t) :
    (advance t (st, evs)).1.prev = t :=
  stepTail_prev _ _ (processEvents_prev_le t evs st h)

/-- `advance` on an empty event list. -/
theorem advance_nil (t : ℚ) (st : SPState) :
    advance t (st, []) = (stepTail st t, []) := rfl

/-- `advance` consumes a leading event not later than `t`. -/
theorem advance_cons_le (t : ℚ) (st : SPState) (e : Event) (es : List Event)
    (h : e.time ≤ t) : advance t (st, e :: es) = advance t (stepEvent st e, es) := by
  simp [advance, processEvents, h]

/-- `advance` stops at a leading event later than `t`. -/
theorem advance_cons_gt (t : ℚ) (st : SPState) (e : Event) (es : List Event)
    (h : ¬ e.time ≤ t) : advance t (st, e :: es) = (stepTail st t, e :: es) := by
  simp [advance, processEvents, h]

/-- Two successive tail integrations fuse into one: the rectangle sum over
`[prev, t1]` and `[t1, t2]` equals the rectangle over `[prev, t2]`. -/
theorem stepTail_stepTail (st : SPState) (t1 t2 : ℚ)
    (h1 : st.prev ≤ t1) (h12 : t1 ≤ t2) :
    stepTail (stepTail st t1) t2 = stepTail st t2 := by
  by_cases ha : 0 < t1 - st.prev
  · rw [stepTail_pos st t1 ha]
    by_cases hb : 0 < t2 - t1
    · have hc : 0 < t2 - st.prev := by linarith
      rw [stepTail_pos _ t2 (by simpa using hb), stepTail_pos st t2 hc]
      simp only [SPState.mk.injEq, and_true, true_and]
      ring
    · have ht : t2 = t1 := le_antisymm (by linarith [not_lt.mp hb]) h12
      subst ht
      rw [stepTail_of_le _ t2 (by simp), stepTail_pos st t2 ha]
  · rw [stepTail_of_le st t1 (sub_nonpos.mp (not_lt.mp ha))]

/-- A tail integration before an event later than it fuses into the event's
own area step. -/
theorem stepTail_stepEvent (st : SPState) (t1 : ℚ) (e : Event)
    (h1 : st.prev ≤ t1) (h2 : t1 < e.time) :
    stepEvent (stepTail st t1) e = stepEvent st e := by
  by_cases ha : 0 < t1 - st.prev
  · rw [stepTail_pos st t1 ha]
    have hb : 0 < e.time - t1 := by linarith
    have hc : 0 < e.time - st.prev := by linarith
    rw [stepEvent_pos _ e (by simpa using hb), stepEvent_pos st e hc]
    simp only [SPState.mk.injEq, and_true, true_and]
    ring
  · rw [stepTail_of_le st t1 (sub_nonpos.mp (not_lt.mp ha))]

/-- Fusion of the per-instant sweep: advancing to `t1` and then to a later
`t2` reaches exactly the state of advancing directly to `t2`.  This is the
sampling-density invariance of the integrator at the state level. -/
theorem advance_advance (t1 t2 : ℚ) (h12 : t1 ≤ t2) :
    ∀ (evs : List Event) (st : SPState), st.prev ≤ t1 →
      advance t2 (advance t1 (st, evs)) = advance t2 (st, evs) := by
  intro evs
  induction evs with
  | nil =>
    intro st h
    rw [advance_nil, advance_nil]
    show (stepTail (stepTail st t1) t2, ([] : List Event)) = (stepTail st t2, [])
    rw [stepTail_stepTail st t1 t2 h h12]
  | cons e es ih =>
    intro st h
    by_cases he1 : e.time ≤ t1
    · rw [advance_cons_le t1 st e es he1, advance_cons_le t2 st e es (he1.trans h12)]
      exact ih (stepEvent st e) (stepEvent_prev_le st e t1 h he1)
    · rw [advance_cons_gt t1 st e es he1]
      by_cases he2 : e.time ≤ t2
      · calc advance t2 (stepTail st t1, e :: es)
            = advance t2 (stepEvent (stepTail st t1) e, es) :=
              advance_cons_le t2 _ e es he2
          _ = advance t2 (stepEvent st e, es) := by
              rw [stepTail_stepEvent st t1 e h (not_le.mp he1)]
          _ = advance t2 (st, e :: es) := (advance_cons_le t2 st e es he2).symm
      · rw [advance_cons_gt t2 _ e es he2, advance_cons_gt t2 st e es he2]
        rw [stepTail_stepTail st t1 t2 h h12]

/-- The default-last of a list is a member of the default-consed list. -/
theorem mem_getLastD (d : ℚ) (l : List ℚ) : List.getLastD l d ∈ d :: l := by
  induction l generalizing d with
  | nil => exact List.mem_cons_self d []
  | cons x xs ih =>
    rw [List.getLastD_cons]
    exact List.mem_cons_of_mem d (ih x)

/-- In a sorted list the head is a lower bound. -/
theorem sorted_head_le {x y : ℚ} {xs : List ℚ}
    (h : List.Sorted (fun a b : ℚ => a ≤ b) (x :: xs)) (hy : y ∈ x :: xs) : x ≤ y := by
  rcases List.mem_cons.mp hy with rfl | hy'
  · exact le_refl y
  · exact (List.sorted_cons.mp h).1 y hy'

/-- In a sorted list the last entry is an upper bound. -/
theorem sorted_le_getLastD : ∀ (xs : List ℚ) (x : ℚ),
    List.Sorted (fun a b : ℚ => a ≤ b) (x :: xs) →
    ∀ y ∈ x :: xs, y ≤ List.getLastD xs x := by
  intro xs
  induction xs with
  | nil =>
    intro x _ y hy
    rcases List.mem_cons.mp hy with rfl | h
    · exact le_refl y
    · exact absurd h (List.not_mem_nil y)
  | cons z zs ih =>
    intro x hs y hy
    rw [List.getLastD_cons]
    have hs' := (List.sorted_cons.mp hs).2
    rcases List.mem_cons.mp hy with rfl | hy'
    · have hxz : y ≤ z := (List.sorted_cons.mp hs).1 z (List.mem_cons_self _ _)
      exact hxz.trans (ih z hs' z (List.mem_cons_self _ _))
    · exact ih z hs' y hy'

/-- Dropping the head of a list with a non-empty tail keeps the last. -/
theorem getLast?_cons_of_ne (a : Metrics) (l : List Metrics) (h : l ≠ []) :
    (a :: l).getLast? = l.getLast? := by
  cases l with
  | nil => exact absurd rfl h
  | cons b m => simp [List.getLast?]

/-- The observation loop over a non-empty instant list is non-empty. -/
theorem runLoop_ne_nil (t0 t : ℚ) (ts : List ℚ) (evs : List Event) (st : SPState) :
    runLoop t0 (t :: ts) evs st ≠ [] := by
  rw [runLoop_cons]
  exact List.cons_ne_nil _ _

/-- The LAST metric row emitted over a sorted instant list `t :: ts` is the
report at the last instant of the state reached by advancing DIRECTLY to
that instant: intermediate observation points do not change the final
state (by `advance_advance`). -/
theorem runLoop_getLast (t0 : ℚ) : ∀ (ts : List ℚ) (t : ℚ) (evs : List Event) (st : SPState),
    List.Sorted (fun a b : ℚ => a ≤ b) (t :: ts) → st.prev ≤ t →
    (runLoop t0 (t :: ts) evs st).getLast? =
      some (report t0 (List.getLastD ts t) ((advance (List.getLastD ts t) (st, evs)).1)) := by
  intro ts
  induction ts with
  | nil =>
    intro t evs st _ _
    rw [runLoop_cons]
    rfl
  | cons t' ts' ih =>
    intro t evs st hsort hprev
    have ht_le : t ≤ t' := (List.sorted_cons.mp hsort).1 t' (List.mem_cons_self _ _)
    have hsort' := (List.sorted_cons.mp hsort).2
    have hprev' : (advance t (st, evs)).1.prev = t := advance_prev t evs st hprev
    rw [runLoop_cons]
    rw [getLast?_cons_of_ne _ _ (runLoop_ne_nil t0 t' ts' _ _)]
    rw [ih t' (advance t (st, evs)).2 (advance t (st, evs)).1 hsort' (by rw [hprev']; exact ht_le)]
    rw [List.getLastD_cons]
    have hL_mem : List.getLastD ts' t' ∈ t' :: ts' := mem_getLastD t' ts'
    have htL : t ≤ List.getLastD ts' t' :=
      ht_le.trans (sorted_head_le hsort' hL_mem)
    rw [advance_advance t (List.getLastD ts' t') htL evs st hprev]

/-- Claim C1 (amended): for every NON-EMPTY event log all of whose event
times lie inside `[t0, tn]` (with `t0 ≤ tn`), integrating with observation
times exactly `{t0, tn}` produces the same final metric row — in
particular the same final `A`, cumulative arrivals and cumulative
departures — as integrating with every event time additionally included as
an observation point.  (Events outside `[t0, tn]` break the original,
unrestricted claim — see the counterexample.) -/
theorem c1_sampling_density (events : List Event) (t0 tn : ℚ)
    (hne : events ≠ []) (hle : t0 ≤ tn)
    (hin : ∀ e ∈ events, t0 ≤ e.time ∧ e.time ≤ tn) :
    ∃ ms1 T2 ms2 m,
      compute_sample_path_metrics events [t0, tn] = some ([t0, tn], ms1) ∧
      compute_sample_path_metrics events ([t0, tn] ++ events.map Event.time) =
        some (T2, ms2) ∧
      ms1.getLast? = some m ∧ ms2.getLast? = some m := by
  cases events with
  | nil => exact absurd rfl hne
  | cons e0 es =>
    have hS1 : sortTimes [t0, tn] = [t0, tn] := by
      simp [sortTimes, List.insertionSort, List.orderedInsert, hle]
    have hrun1 : compute_sample_path_metrics (e0 :: es) [t0, tn] =
        some ([t0, tn], runLoop t0 [t0, tn] (sortEvents (e0 :: es)) (initState t0)) := by
      simp [compute_sample_path_metrics, hS1]
    have hsort1 : List.Sorted (fun a b : ℚ => a ≤ b) [t0, tn] := by
      simp [List.sorted_cons, hle]
    have hlast1 := runLoop_getLast t0 [tn] t0 (sortEvents (e0 :: es)) (initState t0)
      hsort1 (le_refl t0)
    cases hS2 : sortTimes ([t0, tn] ++ (e0 :: es).map Event.time) with
    | nil =>
      exfalso
      have := (sortTimes_perm ([t0, tn] ++ (e0 :: es).map Event.time)).length_eq
      rw [hS2] at this
      simp at this
    | cons s0 S' =>
      have hsort2 : List.Sorted (fun a b : ℚ => a ≤ b) (s0 :: S') := by
        rw [← hS2]; exact sortTimes_sorted _
      have hmemS : ∀ y ∈ s0 :: S', t0 ≤ y ∧ y ≤ tn := by
        intro y hy
        have hy' : y ∈ [t0, tn] ++ (e0 :: es).map Event.time := by
          rw [← hS2] at hy
          exact (sortTimes_perm _).mem_iff.mp hy
        rcases List.mem_append.mp hy' with h2 | h2
        · rcases List.mem_cons.mp h2 with rfl | h3
          · exact ⟨le_refl y, hle⟩
          · rcases List.mem_cons.mp h3 with rfl | h4
            · exact ⟨hle, le_refl y⟩
            · exact absurd h4 (List.not_mem_nil y)
        · rcases List.mem_map.mp h2 with ⟨ev, hev, rfl⟩
          exact hin ev hev
      have ht0S : t0 ∈ s0 :: S' := by
        rw [← hS2]
        exact (sortTimes_perm _).mem_iff.mpr (List.mem_cons_self t0 _)
      have htnS : tn ∈ s0 :: S' := by
        rw [← hS2]
        refine (sortTimes_perm _).mem_iff.mpr ?_
        exact List.mem_cons_of_mem t0 (List.mem_cons_self tn _)
      have hs0 : s0 = t0 :=
        le_antisymm (sorted_head_le hsort2 ht0S) (hmemS s0 (List.mem_cons_self _ _)).1
      have hlastS : List.getLastD S' s0 = tn :=
        le_antisymm (hmemS _ (mem_getLastD s0 S')).2 (sorted_le_getLastD S' s0 hsort2 tn htnS)
      have hS2' : sortTimes (t0 :: tn :: e0.time :: List.map Event.time es) = s0 :: S' := by
        simpa using hS2
      have hrun2 : compute_sample_path_metrics (e0 :: es) ([t0, tn] ++ (e0 :: es).map Event.time) =
          some (s0 :: S', runLoop s0 (s0 :: S') (sortEvents (e0 :: es)) (initState s0)) := by
        simp [compute_sample_path_metrics, hS2']
      have hlast2 := runLoop_getLast s0 S' s0 (sortEvents (e0 :: es)) (initState s0)
        hsort2 (le_refl s0)
      refine ⟨_, s0 :: S', _,
        report t0 tn (advance tn (initState t0, sortEvents (e0 :: es))).1,
        hrun1, hrun2, ?_, ?_⟩
      · rw [hlast1]
        rfl
      · rw [hlast2, hlastS, hs0]

/-- Witness for C1 at a concrete input: one event at time `1` inside the
window `[0, 2]`. -/
theorem c1_sampling_density_witness :
    ([⟨1, 1, 1⟩] : List Event) ≠ [] ∧ (0 : ℚ) ≤ 2 ∧
    (∀ e ∈ ([⟨1, 1, 1⟩] : List Event), (0 : ℚ) ≤ e.time ∧ e.time ≤ 2) ∧
    ∃ ms1 T2 ms2 m,
      compute_sample_path_metrics [⟨1, 1, 1⟩] [0, 2] = some ([0, 2], ms1) ∧
      compute_sample_path_metrics [⟨1, 1, 1⟩]
          ([0, 2] ++ ([⟨1, 1, 1⟩] : List Event).map Event.time) = some (T2, ms2) ∧
      ms1.getLast? = some m ∧ ms2.getLast? = some m :=
  ⟨List.cons_ne_nil _ _, by norm_num,
    by
      intro e he
      rw [List.mem_singleton] at he
      subst he
      exact ⟨by norm_num, by norm_num⟩,
    c1_sampling_density [⟨1, 1, 1⟩] 0 2 (List.cons_ne_nil _ _) (by norm_num)
      (by
        intro e he
        rw [List.mem_singleton] at he
        subst he
        exact ⟨by norm_num, by norm_num⟩)⟩

/-- Counterexample to C1 as stated (no restriction on event times): with
the single event `(2, +1, 1)` and window observation times `{0, 1}`, the
restricted run ends with cumulative arrivals `0`, but adding the event
time `2` as an observation point drags the window end to `2` and the run
then ends with cumulative arrivals `1`.  The final cumulative arrivals
(and departures) differ, so sampling density does change the reported
totals when events lie outside `[t0, tn]`. -/
theorem c1_counterexample :
    (compute_sample_path_metrics [⟨2, 1, 1⟩] [0, 1]).map
        (fun p => p.2.getLast?.map Metrics.arr) = some (some 0) ∧
    (compute_sample_path_metrics [⟨2, 1, 1⟩]
          ([0, 1] ++ ([⟨2, 1, 1⟩] : List Event).map Event.time)).map
        (fun p => p.2.getLast?.map Metrics.arr) = some (some 1) ∧
    (0 : Int) ≠ 1 := by
  refine ⟨?_, ?_, by norm_num⟩ <;>
    norm_num [compute_sample_path_metrics, sortTimes, sortEvents, List.insertionSort,
      List.orderedInsert, runLoop, advance, processEvents, stepEvent, stepTail,
      report, initState, List.getLast?]

/-- `dNSum` over a cons. -/
theorem dNSum_cons (e : Event) (l : List Event) : dNSum (e :: l) = e.dN + dNSum l := by
  simp [dNSum]

/-- `arrSum` over a cons. -/
theorem arrSum_cons (e : Event) (l : List Event) : arrSum (e :: l) = e.a + arrSum l := by
  simp [arrSum]

/-- `depSum` over a cons. -/
theorem depSum_cons (e : Event) (l : List Event) :
    depSum (e :: l) = max (e.a - e.dN) 0 + depSum l := by
  simp [depSum]

/-- `stepEvent` always applies the occupancy jump. -/
theorem stepEvent_N (st : SPState) (e : Event) : (stepEvent st e).N = st.N + e.dN := by
  unfold stepEvent
  by_cases h : 0 < e.time - st.prev <;> simp [h]

/-- `stepEvent` always accumulates the arrival mark. -/
theorem stepEvent_cumArr (st : SPState) (e : Event) :
    (stepEvent st e).cumArr = st.cumArr + e.a := by
  unfold stepEvent
  by_cases h : 0 < e.time - st.prev <;> simp [h]

/-- `stepEvent` always accumulates the clamped derived departures. -/
theorem stepEvent_cumDep (st : SPState) (e : Event) :
    (stepEvent st e).cumDep = st.cumDep + max (e.a - e.dN) 0 := by
  unfold stepEvent
  by_cases h : 0 < e.time - st.prev <;> simp [h]

/-- The tail integration touches only the area and the cursor. -/
theorem stepTail_counts (st : SPState) (t : ℚ) :
    (stepTail st t).N = st.N ∧ (stepTail st t).cumArr = st.cumArr ∧
    (stepTail st t).cumDep = st.cumDep := by
  unfold stepTail
  by_cases h : 0 < t - st.prev <;> simp [h]

/-- Over a time-sorted event list the inner while-loop consumes exactly the
events with time `≤ t`, accumulating their `dN`, arrival marks, and clamped
departures, and leaves exactly the events with time `> t`. -/
theorem processEvents_counts (t : ℚ) : ∀ (evs : List Event) (st : SPState),
    List.Sorted (fun e1 e2 : Event => e1.time ≤ e2.time) evs →
    (processEvents evs t st).1.N =
      st.N + dNSum (evs.filter (fun e => decide (e.time ≤ t))) ∧
    (processEvents evs t st).1.cumArr =
      st.cumArr + arrSum (evs.filter (fun e => decide (e.time ≤ t))) ∧
    (processEvents evs t st).1.cumDep =
      st.cumDep + depSum (evs.filter (fun e => decide (e.time ≤ t))) ∧
    (processEvents evs t st).2 = evs.filter (fun e => decide (t < e.time)) := by
  intro evs
  induction evs with
  | nil =>
    intro st _
    simp [processEvents, dNSum, arrSum, depSum]
  | cons e es ih =>
    intro st hsort
    have hsort' := (List.sorted_cons.mp hsort).2
    by_cases he : e.time ≤ t
    · have ihr := ih (stepEvent st e) hsort'
      have hfe : (e :: es).filter (fun e => decide (e.time ≤ t)) =
          e :: es.filter (fun e => decide (e.time ≤ t)) := by
        simp [List.filter_cons, he]
      have hfr : (e :: es).filter (fun e => decide (t < e.time)) =
          es.filter (fun e => decide (t < e.time)) := by
        simp [List.filter_cons, not_lt.mpr he]
      simp only [processEvents, if_pos he]
      rw [hfe, hfr]
      refine ⟨?_, ?_, ?_, ihr.2.2.2⟩
      · rw [ihr.1, stepEvent_N, dNSum_cons]; ring
      · rw [ihr.2.1, stepEvent_cumArr, arrSum_cons]; ring
      · rw [ihr.2.2.1, stepEvent_cumDep, depSum_cons]; ring
    · have hgt : t < e.time := not_le.mp he
      have hall : ∀ x ∈ e :: es, t < x.time := by
        intro x hx
        rcases List.mem_cons.mp hx with rfl | hx'
        · exact hgt
        · exact hgt.trans_le ((List.sorted_cons.mp hsort).1 x hx')
      have hfe : (e :: es).filter (fun e => decide (e.time ≤ t)) = [] := by
        rw [List.filter_eq_nil_iff]
        intro x hx
        simpa using not_le.mpr (hall x hx)
      have hfr : (e :: es).filter (fun e => decide (t < e.time)) = e :: es := by
        rw [List.filter_eq_self]
        intro x hx
        simpa using hall x hx
      simp only [processEvents, if_neg he]
      rw [hfe, hfr]
      simp [dNSum, arrSum, depSum]

/-- Per-event conservation: over events whose pre-window entries carry a
zeroed arrival mark and non-negative `dN`, and whose in-window entries have
non-negative derived departures, the quantity `dN - a + clampedDep` sums to
the pre-window `dN` total. -/
theorem termSum_good (tw : ℚ) : ∀ l : List Event,
    (∀ e ∈ l, e.time < tw → e.a = 0 ∧ 0 ≤ e.dN) →
    (∀ e ∈ l, tw ≤ e.time → 0 ≤ e.a - e.dN) →
    dNSum l - arrSum l + depSum l =
      dNSum (l.filter (fun e => decide (e.time < tw))) := by
  intro l
  induction l with
  | nil => simp [dNSum, arrSum, depSum]
  | cons e l ih =>
    intro hpre hwin
    have ihr := ih (fun x hx => hpre x (List.mem_cons_of_mem e hx))
      (fun x hx => hwin x (List.mem_cons_of_mem e hx))
    by_cases hlt : e.time < tw
    · obtain ⟨ha, hdN⟩ := hpre e (List.mem_cons_self e l) hlt
      rw [dNSum_cons, arrSum_cons, depSum_cons,
        List.filter_cons_of_pos (by simpa using hlt), dNSum_cons]
      omega
    · have hge : tw ≤ e.time := not_lt.mp hlt
      have hd := hwin e (List.mem_cons_self e l) hge
      rw [dNSum_cons, arrSum_cons, depSum_cons,
        List.filter_cons_of_neg (by simpa using hlt)]
      omega

/-- Restricting a `≤ t` filter further to `< tw` (with `tw ≤ t`) is the
same as filtering the original list by `< tw`. -/
theorem filter_le_filter_lt (tw t : ℚ) (h : tw ≤ t) (l : List Event) :
    (l.filter (fun e => decide (e.time ≤ t))).filter
        (fun e => decide (e.time < tw)) =
      l.filter (fun e => decide (e.time < tw)) := by
  rw [List.filter_filter]
  apply List.filter_congr
  intro e _
  by_cases h2 : e.time < tw
  · simp [h2, le_of_lt (h2.trans_le h)]
  · simp [h2]

/-- Events surviving a `> t` filter contain nothing before `tw ≤ t`. -/
theorem filter_gt_filter_lt (tw t : ℚ) (h : tw ≤ t) (l : List Event) :
    (l.filter (fun e => decide (t < e.time))).filter
        (fun e => decide (e.time < tw)) = [] := by
  rw [List.filter_filter, List.filter_eq_nil_iff]
  intro x _
  simp only [Bool.and_eq_true, decide_eq_true_eq, not_and]
  intro h1 h2
  linarith

/-- `advance` components, spelled out. -/
theorem advance_fst (t : ℚ) (st : SPState) (evs : List Event) :
    (advance t (st, evs)).1 = stepTail (processEvents evs t st).1 t := rfl

/-- The unconsumed events after `advance`. -/
theorem advance_snd (t : ℚ) (st : SPState) (evs : List Event) :
    (advance t (st, evs)).2 = (processEvents evs t st).2 := rfl

/-- Conservation invariant of the observation loop: with pre-window events
prepped (arrival mark zero) and carrying non-negative `dN`, and in-window
events having non-negative derived departures, every reported row satisfies
`N - Arrivals + Departures = startingOffset + pre-window dN total`. -/
theorem runLoop_conservation (tw : ℚ) : ∀ (ts : List ℚ) (t0 : ℚ) (evs : List Event) (st : SPState),
    List.Sorted (fun e1 e2 : Event => e1.time ≤ e2.time) evs →
    (∀ t ∈ ts, tw ≤ t) →
    (∀ e ∈ evs, e.time < tw → e.a = 0 ∧ 0 ≤ e.dN) →
    (∀ e ∈ evs, tw ≤ e.time → 0 ≤ e.a - e.dN) →
    ∀ m ∈ runLoop t0 ts evs st,
      m.N - m.arr + m.dep = st.N - st.cumArr + st.cumDep +
        dNSum (evs.filter (fun e => decide (e.time < tw))) := by
  intro ts
  induction ts with
  | nil =>
    intro t0 evs st _ _ _ _ m hm
    exact absurd hm (List.not_mem_nil m)
  | cons t ts' ih =>
    intro t0 evs st hsort hts hpre hwin m hm
    have htw : tw ≤ t := hts t (List.mem_cons_self t ts')
    have hc := processEvents_counts t evs st hsort
    have hF : ∀ e ∈ evs.filter (fun e => decide (e.time ≤ t)), e ∈ evs := by
      intro e he
      exact (List.mem_filter.mp he).1
    have hterm := termSum_good tw (evs.filter (fun e => decide (e.time ≤ t)))
      (fun x hx => hpre x (hF x hx)) (fun x hx => hwin x (hF x hx))
    rw [filter_le_filter_lt tw t htw] at hterm
    have htc := stepTail_counts (processEvents evs t st).1 t
    have key1 : (advance t (st, evs)).1.N - (advance t (st, evs)).1.cumArr +
        (advance t (st, evs)).1.cumDep = st.N - st.cumArr + st.cumDep +
        dNSum (evs.filter (fun e => decide (e.time < tw))) := by
      rw [advance_fst, htc.1, htc.2.1, htc.2.2, hc.1, hc.2.1, hc.2.2.1]
      omega
    rw [runLoop_cons] at hm
    rcases List.mem_cons.mp hm with rfl | hm'
    · show (advance t (st, evs)).1.N - (advance t (st, evs)).1.cumArr +
        (advance t (st, evs)).1.cumDep = _
      exact key1
    · have hsortR : List.Sorted (fun e1 e2 : Event => e1.time ≤ e2.time)
          ((advance t (st, evs)).2) := by
        rw [advance_snd, hc.2.2.2]
        exact hsort.filter _
      have hRsub : ∀ e ∈ (advance t (st, evs)).2, e ∈ evs := by
        intro e he
        rw [advance_snd, hc.2.2.2] at he
        exact (List.mem_filter.mp he).1
      have hrec := ih t0 ((advance t (st, evs)).2) ((advance t (st, evs)).1)
        hsortR (fun x hx => hts x (List.mem_cons_of_mem t hx))
        (fun x hx => hpre x (hRsub x hx)) (fun x hx => hwin x (hRsub x hx)) m hm'
      rw [hrec, key1]
      have hzero : dNSum (((advance t (st, evs)).2).filter
          (fun e => decide (e.time < tw))) = 0 := by
        rw [advance_snd, hc.2.2.2, filter_gt_filter_lt tw t htw]
        rfl
      rw [hzero]
      omega

/-- `dNSum` is invariant under permutation. -/
theorem dNSum_perm (l1 l2 : List Event) (h : List.Perm l1 l2) : dNSum l1 = dNSum l2 :=
  (h.map Event.dN).sum_eq

/-- `arrSum` is invariant under permutation. -/
theorem arrSum_perm (l1 l2 : List Event) (h : List.Perm l1 l2) : arrSum l1 = arrSum l2 :=
  (h.map Event.a).sum_eq

/-- `depSum` is invariant under permutation. -/
theorem depSum_perm (l1 l2 : List Event) (h : List.Perm l1 l2) : depSum l1 = depSum l2 :=
  (h.map _).sum_eq

/-- Sorting a non-empty list is non-empty. -/
theorem sortEvents_ne_nil (l : List Event) (h : l ≠ []) : sortEvents l ≠ [] := by
  intro hc
  apply h
  have hp := sortEvents_perm l
  rw [hc] at hp
  exact hp.symm.eq_nil

/-- Members of the prepped list arise from members of the source list by
the zero-the-arrival-mark-before-`t0` transformation. -/
theorem mem_prepEvents (t0 : ℚ) (l : List Event) (e : Event) (he : e ∈ prepEvents t0 l) :
    ∃ x ∈ l, e = if x.time < t0 then { x with a := 0 } else x := by
  rcases List.mem_map.mp he with ⟨x, hx, hxe⟩
  exact ⟨x, hx, hxe.symm⟩

/-- Prepping does not change the `dN` data of the pre-window events. -/
theorem dNSum_prep_filter_lt (t0 : ℚ) (l : List Event) :
    dNSum ((prepEvents t0 l).filter (fun e => decide (e.time < t0))) =
      dNSum (l.filter (fun e => decide (e.time < t0))) := by
  induction l with
  | nil => rfl
  | cons x xs ih =>
    by_cases hx : x.time < t0
    · have h1 : prepEvents t0 (x :: xs) =
          { x with a := 0 } :: prepEvents t0 xs := by
        simp [prepEvents, hx]
      rw [h1, List.filter_cons_of_pos (by simpa using hx),
        List.filter_cons_of_pos (by simpa using hx), dNSum_cons, dNSum_cons, ih]
    · have h1 : prepEvents t0 (x :: xs) = x :: prepEvents t0 xs := by
        simp [prepEvents, hx]
      rw [h1, List.filter_cons_of_neg (by simpa using hx),
        List.filter_cons_of_neg (by simpa using hx), ih]

/-- The packaging step on a non-empty schedule, with a non-empty event
list, spelled out. -/
theorem packageResult_cons (es : List Event) (o : ℚ) (os : List ℚ) (mode : SPMode)
    (fr : Option String) (hne : es ≠ []) :
    ∃ s0 S', sortTimes (o :: os) = s0 :: S' ∧
      packageResult es (o :: os) mode fr =
        { events := prepEvents o es, times := s0 :: S',
          metrics := runLoop s0 (s0 :: S') (sortEvents (prepEvents o es)) (initState s0),
          mode := mode, freq := fr, t0 := some o, tn := some (List.getLastD os o) } := by
  cases hS : sortTimes (o :: os) with
  | nil =>
    exfalso
    have hlen := (sortTimes_perm (o :: os)).length_eq
    rw [hS] at hlen
    simp at hlen
  | cons s0 S' =>
    refine ⟨s0, S', rfl, ?_⟩
    cases es with
    | nil => exact absurd rfl hne
    | cons e0 es' =>
      have hcsm : compute_sample_path_metrics (prepEvents o (e0 :: es')) (o :: os) =
          some (s0 :: S', runLoop s0 (s0 :: S')
            (sortEvents (prepEvents o (e0 :: es'))) (initState s0)) := by
        simp [compute_sample_path_metrics, prepEvents, hS]
      simp only [packageResult]
      rw [hcsm]

/-- Every successful driver invocation on a non-empty event log returns the
packaging of the sorted events over some observation schedule. -/
theorem driver_ok_package (lib : CalendarLib) (isNative : String → Bool)
    (events : List Event) (freq : Option String) (start stop : Option ℚ)
    (inb : Bool) (wa qa ya : String) (res : FlowMetricsResult)
    (hne : events ≠ [])
    (hok : compute_finite_window_flow_metrics lib isNative events freq start stop
      inb wa qa ya = Except.ok res) :
    ∃ obs mode fr, res = packageResult (sortEvents events) obs mode fr := by
  cases events with
  | nil => exact absurd rfl hne
  | cons e es =>
    cases freq with
    | none =>
      simp only [compute_finite_window_flow_metrics, List.isEmpty_cons,
        Bool.false_eq_true, if_false, Except.ok.injEq] at hok
      exact ⟨_, SPMode.event, none, hok.symm⟩
    | some bucket =>
      cases hrf : resolve_freq isNative bucket wa qa ya with
      | error msg =>
        exfalso
        simp only [compute_finite_window_flow_metrics, List.isEmpty_cons,
          Bool.false_eq_true, if_false, hrf] at hok
        exact Except.noConfusion hok
      | ok rf =>
        simp only [compute_finite_window_flow_metrics, List.isEmpty_cons,
          Bool.false_eq_true, if_false, hrf, Except.ok.injEq] at hok
        exact ⟨_, SPMode.calendar, some rf, hok.symm⟩

/-- Claim C3 (amended): for every Driver invocation with a non-empty event
log and non-empty observation schedule (whose first observation time is its
minimum, as the real calendar generator guarantees), at every observation
time the reported occupancy satisfies
`N = initial_N + Arrivals - Departures` with `initial_N` the `dN` total of
events strictly before `t0`, PROVIDED every event strictly before `t0` has
`dN ≥ 0` and every event at or after `t0` has `a - dN ≥ 0`.  (Without the
proviso the identity fails — see the counterexample: a pre-window event
with `dN < 0` is counted once in `initial_N` and once more as a clamped
departure.) -/
theorem c3_conservation (lib : CalendarLib) (isNative : String → Bool)
    (events : List Event) (freq : Option String) (start stop : Option ℚ)
    (inb : Bool) (wa qa ya : String) (res : FlowMetricsResult) (t0w : ℚ)
    (hne : events ≠ [])
    (hok : compute_finite_window_flow_metrics lib isNative events freq start stop
      inb wa qa ya = Except.ok res)
    (ht0 : res.t0 = some t0w)
    (hhead : res.times.head? = some t0w)
    (hpre : ∀ e ∈ events, e.time < t0w → 0 ≤ e.dN)
    (hwin : ∀ e ∈ events, t0w ≤ e.time → 0 ≤ e.a - e.dN) :
    ∀ m ∈ res.metrics,
      m.N = dNSum (events.filter (fun e => decide (e.time < t0w))) + m.arr - m.dep := by
  obtain ⟨obs, mode, fr, rfl⟩ := driver_ok_package lib isNative events freq start stop
    inb wa qa ya res hne hok
  cases obs with
  | nil => simp [packageResult, emptyResult] at ht0
  | cons o os =>
    obtain ⟨s0, S', hS, hpack⟩ := packageResult_cons (sortEvents events) o os mode fr
      (sortEvents_ne_nil events hne)
    rw [hpack] at ht0 hhead ⊢
    have ho : o = t0w := by simpa using ht0
    have hs0 : s0 = t0w := by simpa using hhead
    rw [ho, hs0] at hS
    rw [ho, hs0]
    intro m hm
    have hm' : m ∈ runLoop t0w (t0w :: S')
        (sortEvents (prepEvents t0w (sortEvents events))) (initState t0w) := hm
    have hsortedS : List.Sorted (fun a b : ℚ => a ≤ b) (t0w :: S') := by
      rw [← hS]
      exact sortTimes_sorted _
    have hts : ∀ t ∈ t0w :: S', t0w ≤ t := fun t ht => sorted_head_le hsortedS ht
    have hpreE : ∀ e ∈ sortEvents (prepEvents t0w (sortEvents events)),
        e.time < t0w → e.a = 0 ∧ 0 ≤ e.dN := by
      intro e he het
      have he1 : e ∈ prepEvents t0w (sortEvents events) :=
        (sortEvents_perm _).mem_iff.mp he
      obtain ⟨x, hx, hex⟩ := mem_prepEvents t0w _ e he1
      have hxev : x ∈ events := (sortEvents_perm events).mem_iff.mp hx
      by_cases hxt : x.time < t0w
      · rw [if_pos hxt] at hex
        subst hex
        exact ⟨rfl, hpre x hxev hxt⟩
      · rw [if_neg hxt] at hex
        subst hex
        exact absurd het hxt
    have hwinE : ∀ e ∈ sortEvents (prepEvents t0w (sortEvents events)),
        t0w ≤ e.time → 0 ≤ e.a - e.dN := by
      intro e he het
      have he1 : e ∈ prepEvents t0w (sortEvents events) :=
        (sortEvents_perm _).mem_iff.mp he
      obtain ⟨x, hx, hex⟩ := mem_prepEvents t0w _ e he1
      have hxev : x ∈ events := (sortEvents_perm events).mem_iff.mp hx
      by_cases hxt : x.time < t0w
      · rw [if_pos hxt] at hex
        subst hex
        exact absurd het (not_le.mpr hxt)
      · rw [if_neg hxt] at hex
        subst hex
        exact hwin e hxev (not_lt.mp hxt)
    have hconv := runLoop_conservation t0w (t0w :: S') t0w
      (sortEvents (prepEvents t0w (sortEvents events))) (initState t0w)
      (sortEvents_sorted _) hts hpreE hwinE m hm'
    have h1 : dNSum ((sortEvents (prepEvents t0w (sortEvents events))).filter
        (fun e => decide (e.time < t0w))) =
        dNSum ((prepEvents t0w (sortEvents events)).filter
          (fun e => decide (e.time < t0w))) :=
      dNSum_perm _ _ ((sortEvents_perm _).filter _)
    have h2 := dNSum_prep_filter_lt t0w (sortEvents events)
    have h3 : dNSum ((sortEvents events).filter (fun e => decide (e.time < t0w))) =
        dNSum (events.filter (fun e => decide (e.time < t0w))) :=
      dNSum_perm _ _ ((sortEvents_perm events).filter _)
    simp only [initState] at hconv
    omega

/-- Witness for C3 at a concrete event-mode invocation: a well-behaved
pre-window event `(-1, +1, 1)` and in-window event `(1, +1, 1)`, window
`[0, 1]`. -/
theorem c3_conservation_witness :
    (([⟨-1, 1, 1⟩, ⟨1, 1, 1⟩] : List Event) ≠ []) ∧
    compute_finite_window_flow_metrics trivLib (fun _ => false)
        [⟨-1, 1, 1⟩, ⟨1, 1, 1⟩] none (some 0) (some 1) false "SUN" "JAN" "JAN" =
      Except.ok ⟨[⟨-1, 1, 0⟩, ⟨1, 1, 1⟩], [0, 1],
        [⟨none, none, none, 1, 0, 0, 0⟩, ⟨some 1, some 1, some 1, 2, 1, 1, 0⟩],
        SPMode.event, none, some 0, some 1⟩ ∧
    (∀ m ∈ ([⟨none, none, none, 1, 0, 0, 0⟩,
        ⟨some 1, some 1, some 1, 2, 1, 1, 0⟩] : List Metrics),
      m.N = dNSum (([⟨-1, 1, 1⟩, ⟨1, 1, 1⟩] : List Event).filter
        (fun e => decide (e.time < 0))) + m.arr - m.dep) := by
  have hdrv : compute_finite_window_flow_metrics trivLib (fun _ => false)
      [⟨-1, 1, 1⟩, ⟨1, 1, 1⟩] none (some 0) (some 1) false "SUN" "JAN" "JAN" =
      Except.ok ⟨[⟨-1, 1, 0⟩, ⟨1, 1, 1⟩], [0, 1],
        [⟨none, none, none, 1, 0, 0, 0⟩, ⟨some 1, some 1, some 1, 2, 1, 1, 0⟩],
        SPMode.event, none, some 0, some 1⟩ := by
    norm_num [compute_finite_window_flow_metrics, packageResult, prepEvents,
      compute_sample_path_metrics, sortTimes, sortEvents, List.insertionSort,
      List.orderedInsert, List.dedup, runLoop, advance, processEvents, stepEvent,
      stepTail, report, initState]
  refine ⟨List.cons_ne_nil _ _, hdrv, ?_⟩
  exact c3_conservation trivLib (fun _ => false) [⟨-1, 1, 1⟩, ⟨1, 1, 1⟩] none
    (some 0) (some 1) false "SUN" "JAN" "JAN" _ 0 (List.cons_ne_nil _ _) hdrv
    rfl rfl (by decide) (by decide)

/-- Counterexample to C3 as stated (without the provisos): the pre-window
event `(-1, -1, 0)` has `dN < 0`; its prepped clamped departure `1` is
accumulated at `t0 = 0`, so the first reported row has `N = -1`,
`Arrivals = 0`, `Departures = 1`, while `initial_N = -1`: the claimed
identity would require `-1 = -1 + 0 - 1`, which is false. -/
theorem c3_counterexample :
    compute_finite_window_flow_metrics trivLib (fun _ => false)
        [⟨-1, -1, 0⟩, ⟨1, 1, 1⟩] none (some 0) (some 1) false "SUN" "JAN" "JAN" =
      Except.ok ⟨[⟨-1, -1, 0⟩, ⟨1, 1, 1⟩], [0, 1],
        [⟨none, none, none, -1, 0, 0, 1⟩,
          ⟨some (-1), some 1, some (-1), 0, -1, 1, 1⟩],
        SPMode.event, none, some 0, some 1⟩ ∧
    dNSum (([⟨-1, -1, 0⟩, ⟨1, 1, 1⟩] : List Event).filter
      (fun e => decide (e.time < 0))) = -1 ∧
    ((-1 : Int) ≠ -1 + 0 - 1) := by
  refine ⟨?_, by decide, by decide⟩
  norm_num [compute_finite_window_flow_metrics, packageResult, prepEvents,
    compute_sample_path_metrics, sortTimes, sortEvents, List.insertionSort,
    List.orderedInsert, List.dedup, runLoop, advance, processEvents, stepEvent,
    stepTail, report, initState]

/-- Prepping preserves the `dN` data of events at or before `t0` (only
arrival marks of pre-window events change). -/
theorem dNSum_prep_filter_le (t0 : ℚ) (l : List Event) :
    dNSum ((prepEvents t0 l).filter (fun e => decide (e.time ≤ t0))) =
      dNSum (l.filter (fun e => decide (e.time ≤ t0))) := by
  induction l with
  | nil => rfl
  | cons x xs ih =>
    by_cases hx : x.time < t0
    · have h1 : prepEvents t0 (x :: xs) = { x with a := 0 } :: prepEvents t0 xs := by
        simp [prepEvents, hx]
      rw [h1, List.filter_cons_of_pos (by simpa using le_of_lt hx),
        List.filter_cons_of_pos (by simpa using le_of_lt hx), dNSum_cons, dNSum_cons, ih]
    · have h1 : prepEvents t0 (x :: xs) = x :: prepEvents t0 xs := by
        simp [prepEvents, hx]
      by_cases hx2 : x.time ≤ t0
      · rw [h1, List.filter_cons_of_pos (by simpa using hx2),
          List.filter_cons_of_pos (by simpa using hx2), dNSum_cons, dNSum_cons, ih]
      · rw [h1, List.filter_cons_of_neg (by simpa using hx2),
          List.filter_cons_of_neg (by simpa using hx2), ih]

/-- After prepping, the arrival marks surviving at the first instant are
exactly those of events occurring exactly at `t0`. -/
theorem arrSum_prep_filter (t0 : ℚ) (l : List Event) :
    arrSum ((prepEvents t0 l).filter (fun e => decide (e.time ≤ t0))) =
      arrSum (l.filter (fun e => decide (e.time = t0))) := by
  induction l with
  | nil => rfl
  | cons x xs ih =>
    rcases lt_trichotomy x.time t0 with hlt | heq | hgt
    · have h1 : prepEvents t0 (x :: xs) = { x with a := 0 } :: prepEvents t0 xs := by
        simp [prepEvents, hlt]
      rw [h1, List.filter_cons_of_pos (by simpa using le_of_lt hlt),
        List.filter_cons_of_neg (by simpa using ne_of_lt hlt), arrSum_cons, ih]
      simp
    · have h1 : prepEvents t0 (x :: xs) = x :: prepEvents t0 xs := by
        simp [prepEvents, not_lt.mpr (le_of_eq heq.symm)]
      rw [h1, List.filter_cons_of_pos (by simpa using le_of_eq heq),
        List.filter_cons_of_pos (by simpa using heq), arrSum_cons, arrSum_cons, ih]
    · have h1 : prepEvents t0 (x :: xs) = x :: prepEvents t0 xs := by
        simp [prepEvents, not_lt.mpr (le_of_lt hgt)]
      rw [h1, List.filter_cons_of_neg (by simpa using not_le.mpr hgt),
        List.filter_cons_of_neg (by simpa using ne_of_gt hgt), ih]

/-- Claim C4: for every Driver invocation with a non-empty event log and
non-empty observation schedule starting at its minimum `t0`: the result's
prepped events are exactly the sorted source events with pre-`t0` arrival
marks zeroed (time and `dN` unchanged, events at or after `t0` unchanged);
consequently the first reported row counts as `Arrivals` only the marks of
events exactly at `t0` (pre-window marks are gone) while its `N` still sums
the `dN` of every event at or before `t0`. -/
theorem c4_prewindow_prepping (lib : CalendarLib) (isNative : String → Bool)
    (events : List Event) (freq : Option String) (start stop : Option ℚ)
    (inb : Bool) (wa qa ya : String) (res : FlowMetricsResult) (t0w : ℚ)
    (hne : events ≠ [])
    (hok : compute_finite_window_flow_metrics lib isNative events freq start stop
      inb wa qa ya = Except.ok res)
    (ht0 : res.t0 = some t0w)
    (hhead : res.times.head? = some t0w) :
    res.events = prepEvents t0w (sortEvents events) ∧
    (∀ e ∈ events,
      (e.time < t0w → (⟨e.time, e.dN, 0⟩ : Event) ∈ res.events) ∧
      (t0w ≤ e.time → e ∈ res.events)) ∧
    (∃ m ms, res.metrics = m :: ms ∧
      m.arr = arrSum (events.filter (fun e => decide (e.time = t0w))) ∧
      m.N = dNSum (events.filter (fun e => decide (e.time ≤ t0w)))) := by
  obtain ⟨obs, mode, fr, rfl⟩ := driver_ok_package lib isNative events freq start stop
    inb wa qa ya res hne hok
  cases obs with
  | nil => simp [packageResult, emptyResult] at ht0
  | cons o os =>
    obtain ⟨s0, S', hS, hpack⟩ := packageResult_cons (sortEvents events) o os mode fr
      (sortEvents_ne_nil events hne)
    rw [hpack] at ht0 hhead ⊢
    have ho : o = t0w := by simpa using ht0
    have hs0 : s0 = t0w := by simpa using hhead
    rw [ho, hs0] at hS
    rw [ho, hs0]
    refine ⟨rfl, ?_, ?_⟩
    · intro e he
      constructor
      · intro hlt
        refine List.mem_map.mpr ⟨e, (sortEvents_perm events).mem_iff.mpr he, ?_⟩
        rw [if_pos hlt]
      · intro hge
        refine List.mem_map.mpr ⟨e, (sortEvents_perm events).mem_iff.mpr he, ?_⟩
        rw [if_neg (not_lt.mpr hge)]
    · refine ⟨report t0w t0w
        (advance t0w (initState t0w, sortEvents (prepEvents t0w (sortEvents events)))).1,
        _, runLoop_cons t0w t0w S' _ _, ?_, ?_⟩
      · show (advance t0w (initState t0w,
            sortEvents (prepEvents t0w (sortEvents events)))).1.cumArr = _
        rw [advance_fst, (stepTail_counts _ _).2.1,
          (processEvents_counts t0w _ (initState t0w) (sortEvents_sorted _)).2.1]
        have hperm : arrSum ((sortEvents (prepEvents t0w (sortEvents events))).filter
            (fun e => decide (e.time ≤ t0w))) =
            arrSum ((prepEvents t0w (sortEvents events)).filter
              (fun e => decide (e.time ≤ t0w))) :=
          arrSum_perm _ _ ((sortEvents_perm _).filter _)
        have hps : arrSum ((sortEvents events).filter (fun e => decide (e.time = t0w))) =
            arrSum (events.filter (fun e => decide (e.time = t0w))) :=
          arrSum_perm _ _ ((sortEvents_perm events).filter _)
        rw [hperm, arrSum_prep_filter, hps]
        simp [initState]
      · show (advance t0w (initState t0w,
            sortEvents (prepEvents t0w (sortEvents events)))).1.N = _
        rw [advance_fst, (stepTail_counts _ _).1,
          (processEvents_counts t0w _ (initState t0w) (sortEvents_sorted _)).1]
        have hperm : dNSum ((sortEvents (prepEvents t0w (sortEvents events))).filter
            (fun e => decide (e.time ≤ t0w))) =
            dNSum ((prepEvents t0w (sortEvents events)).filter
              (fun e => decide (e.time ≤ t0w))) :=
          dNSum_perm _ _ ((sortEvents_perm _).filter _)
        have hps : dNSum ((sortEvents events).filter (fun e => decide (e.time ≤ t0w))) =
            dNSum (events.filter (fun e => decide (e.time ≤ t0w))) :=
          dNSum_perm _ _ ((sortEvents_perm events).filter _)
        rw [hperm, dNSum_prep_filter_le, hps]
        simp [initState]

/-- Witness for C4 at a concrete event-mode invocation: pre-window event
`(-1, +2, 2)` (marks must vanish, `dN` must survive), in-window event
`(1, +1, 1)`, window `[0, 1]`. -/
theorem c4_prewindow_prepping_witness :
    (([⟨-1, 2, 2⟩, ⟨1, 1, 1⟩] : List Event) ≠ []) ∧
    compute_finite_window_flow_metrics trivLib (fun _ => false)
        [⟨-1, 2, 2⟩, ⟨1, 1, 1⟩] none (some 0) (some 1) false "SUN" "JAN" "JAN" =
      Except.ok ⟨[⟨-1, 2, 0⟩, ⟨1, 1, 1⟩], [0, 1],
        [⟨none, none, none, 2, 0, 0, 0⟩, ⟨some 2, some 1, some 2, 3, 2, 1, 0⟩],
        SPMode.event, none, some 0, some 1⟩ ∧
    ((⟨[⟨-1, 2, 0⟩, ⟨1, 1, 1⟩], [0, 1],
        [⟨none, none, none, 2, 0, 0, 0⟩, ⟨some 2, some 1, some 2, 3, 2, 1, 0⟩],
        SPMode.event, none, some 0, some 1⟩ : FlowMetricsResult).events =
      prepEvents 0 (sortEvents [⟨-1, 2, 2⟩, ⟨1, 1, 1⟩]) ∧
    (∀ e ∈ ([⟨-1, 2, 2⟩, ⟨1, 1, 1⟩] : List Event),
      (e.time < 0 → (⟨e.time, e.dN, 0⟩ : Event) ∈
        ([⟨-1, 2, 0⟩, ⟨1, 1, 1⟩] : List Event)) ∧
      ((0 : ℚ) ≤ e.time → e ∈ ([⟨-1, 2, 0⟩, ⟨1, 1, 1⟩] : List Event))) ∧
    (∃ m ms, ([⟨none, none, none, 2, 0, 0, 0⟩,
        ⟨some 2, some 1, some 2, 3, 2, 1, 0⟩] : List Metrics) = m :: ms ∧
      m.arr = arrSum (([⟨-1, 2, 2⟩, ⟨1, 1, 1⟩] : List Event).filter
        (fun e => decide (e.time = 0))) ∧
      m.N = dNSum (([⟨-1, 2, 2⟩, ⟨1, 1, 1⟩] : List Event).filter
        (fun e => decide (e.time ≤ 0))))) := by
  have hdrv : compute_finite_window_flow_metrics trivLib (fun _ => false)
      [⟨-1, 2, 2⟩, ⟨1, 1, 1⟩] none (some 0) (some 1) false "SUN" "JAN" "JAN" =
      Except.ok ⟨[⟨-1, 2, 0⟩, ⟨1, 1, 1⟩], [0, 1],
        [⟨none, none, none, 2, 0, 0, 0⟩, ⟨some 2, some 1, some 2, 3, 2, 1, 0⟩],
        SPMode.event, none, some 0, some 1⟩ := by
    norm_num [compute_finite_window_flow_metrics, packageResult, prepEvents,
      compute_sample_path_metrics, sortTimes, sortEvents, List.insertionSort,
      List.orderedInsert, List.dedup, runLoop, advance, processEvents, stepEvent,
      stepTail, report, initState]
  exact ⟨List.cons_ne_nil _ _, hdrv,
    c4_prewindow_prepping trivLib (fun _ => false) [⟨-1, 2, 2⟩, ⟨1, 1, 1⟩] none
      (some 0) (some 1) false "SUN" "JAN" "JAN" _ 0 (List.cons_ne_nil _ _) hdrv
      rfl rfl⟩

/-- Splitting `depSum` along a Boolean predicate. -/
theorem depSum_filter_split (p : Event → Bool) (l : List Event) :
    depSum (l.filter p) + depSum (l.filter (fun e => !(p e))) = depSum l := by
  induction l with
  | nil => rfl
  | cons x xs ih =>
    by_cases hp : p x = true
    · rw [List.filter_cons_of_pos hp, List.filter_cons_of_neg (by simp [hp]),
        depSum_cons, depSum_cons]
      omega
    · rw [List.filter_cons_of_neg hp, List.filter_cons_of_pos (by simp [hp]),
        depSum_cons, depSum_cons]
      omega

/-- Clamped departures are never negative. -/
theorem depSum_nonneg (l : List Event) : 0 ≤ depSum l := by
  apply List.sum_nonneg
  intro x hx
  rcases List.mem_map.mp hx with ⟨e, _, rfl⟩
  exact le_max_right _ _

/-- Lower bound of the reported departures: every row reports at least the
starting count plus the clamped departures of all events before `tw`
(processed at the first observation instant, since all instants are
`≥ tw`). -/
theorem runLoop_dep_lower (tw : ℚ) : ∀ (ts : List ℚ) (t0 : ℚ) (evs : List Event) (st : SPState),
    List.Sorted (fun e1 e2 : Event => e1.time ≤ e2.time) evs →
    (∀ t ∈ ts, tw ≤ t) →
    ∀ m ∈ runLoop t0 ts evs st,
      st.cumDep + depSum (evs.filter (fun e => decide (e.time < tw))) ≤ m.dep := by
  intro ts
  induction ts with
  | nil =>
    intro t0 evs st _ _ m hm
    exact absurd hm (List.not_mem_nil m)
  | cons t ts' ih =>
    intro t0 evs st hsort hts m hm
    have htw : tw ≤ t := hts t (List.mem_cons_self t ts')
    have hc := processEvents_counts t evs st hsort
    have hsplit := depSum_filter_split (fun e => decide (e.time < tw))
      (evs.filter (fun e => decide (e.time ≤ t)))
    have hnn := depSum_nonneg ((evs.filter (fun e => decide (e.time ≤ t))).filter
      (fun e => !(decide (e.time < tw))))
    have hfl := filter_le_filter_lt tw t htw evs
    have key : st.cumDep + depSum (evs.filter (fun e => decide (e.time < tw))) ≤
        (advance t (st, evs)).1.cumDep := by
      rw [advance_fst, (stepTail_counts _ _).2.2, hc.2.2.1]
      rw [hfl] at hsplit
      omega
    rw [runLoop_cons] at hm
    rcases List.mem_cons.mp hm with rfl | hm'
    · exact key
    · have hsortR : List.Sorted (fun e1 e2 : Event => e1.time ≤ e2.time)
          ((advance t (st, evs)).2) := by
        rw [advance_snd, hc.2.2.2]
        exact hsort.filter _
      have hrec := ih t0 ((advance t (st, evs)).2) ((advance t (st, evs)).1) hsortR
        (fun x hx => hts x (List.mem_cons_of_mem t hx)) m hm'
      have hzero : depSum (((advance t (st, evs)).2).filter
          (fun e => decide (e.time < tw))) = 0 := by
        rw [advance_snd, hc.2.2.2, filter_gt_filter_lt tw t htw]
        rfl
      rw [hzero] at hrec
      omega

/-- The clamped departures of the prepped pre-window events are exactly the
negated `dN` of the pre-window events with negative `dN` (the zeroed mark
makes `dep = -dN`, clamped away when `dN ≥ 0`). -/
theorem depSum_prep_eq (t0 : ℚ) (l : List Event) :
    depSum ((prepEvents t0 l).filter (fun e => decide (e.time < t0))) =
      ((l.filter (fun e => decide (e.time < t0) && decide (e.dN < 0))).map
        (fun e => -e.dN)).sum := by
  induction l with
  | nil => rfl
  | cons x xs ih =>
    by_cases hx : x.time < t0
    · have h1 : prepEvents t0 (x :: xs) = { x with a := 0 } :: prepEvents t0 xs := by
        simp [prepEvents, hx]
      rw [h1, List.filter_cons_of_pos (by simpa using hx), depSum_cons]
      by_cases hdn : x.dN < 0
      · rw [List.filter_cons_of_pos (by simp [hx, hdn]), List.map_cons, List.sum_cons]
        show max ((0 : Int) - x.dN) 0 +
          depSum ((prepEvents t0 xs).filter (fun e => decide (e.time < t0))) = _
        rw [ih]
        omega
      · rw [List.filter_cons_of_neg (by simp [hdn])]
        show max ((0 : Int) - x.dN) 0 +
          depSum ((prepEvents t0 xs).filter (fun e => decide (e.time < t0))) = _
        rw [ih]
        omega
    · have h1 : prepEvents t0 (x :: xs) = x :: prepEvents t0 xs := by
        simp [prepEvents, hx]
      rw [h1, List.filter_cons_of_neg (by simpa using hx),
        List.filter_cons_of_neg (by simp [hx]), ih]

/-- Claim C9 (implicit in the code): for every Driver invocation with a
non-empty event log and non-empty observation schedule starting at its
minimum `t0`, every event strictly before `t0` with `dN < 0` contributes
`-dN` to the reported cumulative departures at EVERY observation time:
the total `Σ (-dN)` over pre-window negative-`dN` events is a lower bound
of every reported `Departures` value, even though those events lie before
the reporting window. -/
theorem c9_prewindow_departures (lib : CalendarLib) (isNative : String → Bool)
    (events : List Event) (freq : Option String) (start stop : Option ℚ)
    (inb : Bool) (wa qa ya : String) (res : FlowMetricsResult) (t0w : ℚ)
    (hne : events ≠ [])
    (hok : compute_finite_window_flow_metrics lib isNative events freq start stop
      inb wa qa ya = Except.ok res)
    (ht0 : res.t0 = some t0w)
    (hhead : res.times.head? = some t0w) :
    ∀ m ∈ res.metrics,
      ((events.filter (fun e => decide (e.time < t0w) && decide (e.dN < 0))).map
        (fun e => -e.dN)).sum ≤ m.dep := by
  obtain ⟨obs, mode, fr, rfl⟩ := driver_ok_package lib isNative events freq start stop
    inb wa qa ya res hne hok
  cases obs with
  | nil => simp [packageResult, emptyResult] at ht0
  | cons o os =>
    obtain ⟨s0, S', hS, hpack⟩ := packageResult_cons (sortEvents events) o os mode fr
      (sortEvents_ne_nil events hne)
    rw [hpack] at ht0 hhead ⊢
    have ho : o = t0w := by simpa using ht0
    have hs0 : s0 = t0w := by simpa using hhead
    rw [ho, hs0] at hS
    rw [ho, hs0]
    intro m hm
    have hm' : m ∈ runLoop t0w (t0w :: S')
        (sortEvents (prepEvents t0w (sortEvents events))) (initState t0w) := hm
    have hsortedS : List.Sorted (fun a b : ℚ => a ≤ b) (t0w :: S') := by
      rw [← hS]
      exact sortTimes_sorted _
    have hts : ∀ t ∈ t0w :: S', t0w ≤ t := fun t ht => sorted_head_le hsortedS ht
    have hlower := runLoop_dep_lower t0w (t0w :: S') t0w
      (sortEvents (prepEvents t0w (sortEvents events))) (initState t0w)
      (sortEvents_sorted _) hts m hm'
    have h1 : depSum ((sortEvents (prepEvents t0w (sortEvents events))).filter
        (fun e => decide (e.time < t0w))) =
        depSum ((prepEvents t0w (sortEvents events)).filter
          (fun e => decide (e.time < t0w))) :=
      depSum_perm _ _ ((sortEvents_perm _).filter _)
    have h2 := depSum_prep_eq t0w (sortEvents events)
    have h3 : (((sortEvents events).filter
        (fun e => decide (e.time < t0w) && decide (e.dN < 0))).map
          (fun e => -e.dN)).sum =
        ((events.filter (fun e => decide (e.time < t0w) && decide (e.dN < 0))).map
          (fun e => -e.dN)).sum :=
      (((sortEvents_perm events).filter _).map _).sum_eq
    simp only [initState] at hlower
    omega

/-- Witness for C9: pre-window event `(-1, -1, 0)` (a departure before the
window), in-window event `(1, +1, 1)`, window `[0, 1]`; both reported rows
carry `Departures ≥ 1`. -/
theorem c9_prewindow_departures_witness :
    (([⟨-1, -1, 0⟩, ⟨1, 1, 1⟩] : List Event) ≠ []) ∧
    compute_finite_window_flow_metrics trivLib (fun _ => false)
        [⟨-1, -1, 0⟩, ⟨1, 1, 1⟩] none (some 0) (some 1) false "SUN" "JAN" "JAN" =
      Except.ok ⟨[⟨-1, -1, 0⟩, ⟨1, 1, 1⟩], [0, 1],
        [⟨none, none, none, -1, 0, 0, 1⟩,
          ⟨some (-1), some 1, some (-1), 0, -1, 1, 1⟩],
        SPMode.event, none, some 0, some 1⟩ ∧
    (∀ m ∈ ([⟨none, none, none, -1, 0, 0, 1⟩,
        ⟨some (-1), some 1, some (-1), 0, -1, 1, 1⟩] : List Metrics),
      ((([⟨-1, -1, 0⟩, ⟨1, 1, 1⟩] : List Event).filter
        (fun e => decide (e.time < 0) && decide (e.dN < 0))).map
          (fun e => -e.dN)).sum ≤ m.dep) := by
  have hdrv : compute_finite_window_flow_metrics trivLib (fun _ => false)
      [⟨-1, -1, 0⟩, ⟨1, 1, 1⟩] none (some 0) (some 1) false "SUN" "JAN" "JAN" =
      Except.ok ⟨[⟨-1, -1, 0⟩, ⟨1, 1, 1⟩], [0, 1],
        [⟨none, none, none, -1, 0, 0, 1⟩,
          ⟨some (-1), some 1, some (-1), 0, -1, 1, 1⟩],
        SPMode.event, none, some 0, some 1⟩ := by
    norm_num [compute_finite_window_flow_metrics, packageResult, prepEvents,
      compute_sample_path_metrics, sortTimes, sortEvents, List.insertionSort,
      List.orderedInsert, List.dedup, runLoop, advance, processEvents, stepEvent,
      stepTail, report, initState]
  exact ⟨List.cons_ne_nil _ _, hdrv,
    c9_prewindow_departures trivLib (fun _ => false) [⟨-1, -1, 0⟩, ⟨1, 1, 1⟩] none
      (some 0) (some 1) false "SUN" "JAN" "JAN" _ 0 (List.cons_ne_nil _ _) hdrv
      rfl rfl⟩

/-- With non-negative occupancy the area step of an event cannot decrease
`A`. -/
theorem stepEvent_A_mono (st : SPState) (e : Event) (hN : 0 ≤ st.N) :
    st.A ≤ (stepEvent st e).A := by
  unfold stepEvent
  by_cases h : 0 < e.time - st.prev
  · simp only [if_pos h]
    have hnn : (0 : ℚ) ≤ (st.N : ℚ) * (e.time - st.prev) :=
      mul_nonneg (by exact_mod_cast hN) h.le
    show st.A ≤ st.A + (st.N : ℚ) * (e.time - st.prev)
    linarith
  · simp [h]

/-- With non-negative occupancy the tail integration cannot decrease `A`. -/
theorem stepTail_A_mono (st : SPState) (t : ℚ) (hN : 0 ≤ st.N) :
    st.A ≤ (stepTail st t).A := by
  unfold stepTail
  by_cases h : 0 < t - st.prev
  · simp only [if_pos h]
    have hnn : (0 : ℚ) ≤ (st.N : ℚ) * (t - st.prev) :=
      mul_nonneg (by exact_mod_cast hN) h.le
    show st.A ≤ st.A + (st.N : ℚ) * (t - st.prev)
    linarith
  · simp [h]

/-- The unconsumed events form a suffix of the input events. -/
theorem processEvents_suffix (t : ℚ) : ∀ (evs : List Event) (st : SPState),
    (processEvents evs t st).2 <:+ evs := by
  intro evs
  induction evs with
  | nil => intro st; exact List.suffix_refl []
  | cons e es ih =>
    intro st
    by_cases he : e.time ≤ t
    · simp only [processEvents, if_pos he]
      exact (ih (stepEvent st e)).trans (List.suffix_cons e es)
    · simp only [processEvents, if_neg he]
      exact List.suffix_refl _

/-- The event loop is monotone in the cumulative counters and (when the
running occupancy stays non-negative along every event prefix) in the
area, and it preserves the prefix-non-negativity of the occupancy for the
unconsumed events. -/
theorem processEvents_mono (t : ℚ) : ∀ (evs : List Event) (st : SPState),
    (∀ e ∈ evs, 0 ≤ e.a) →
    (∀ l1 l2, evs = l1 ++ l2 → 0 ≤ st.N + dNSum l1) →
    st.A ≤ (processEvents evs t st).1.A ∧
    st.cumArr ≤ (processEvents evs t st).1.cumArr ∧
    st.cumDep ≤ (processEvents evs t st).1.cumDep ∧
    (∀ l1 l2, (processEvents evs t st).2 = l1 ++ l2 →
      0 ≤ (processEvents evs t st).1.N + dNSum l1) := by
  intro evs
  induction evs with
  | nil =>
    intro st _ hpref
    refine ⟨le_refl _, le_refl _, le_refl _, ?_⟩
    intro l1 l2 h
    have hl1 : l1 = [] := (List.append_eq_nil.mp h.symm).1
    subst hl1
    simpa using hpref [] [] rfl
  | cons e es ih =>
    intro st harr hpref
    have hN0 : 0 ≤ st.N := by simpa [dNSum] using hpref [] (e :: es) rfl
    by_cases he : e.time ≤ t
    · have hA := stepEvent_A_mono st e hN0
      have harr1 : st.cumArr ≤ (stepEvent st e).cumArr := by
        rw [stepEvent_cumArr]
        have := harr e (List.mem_cons_self e es)
        omega
      have hdep1 : st.cumDep ≤ (stepEvent st e).cumDep := by
        rw [stepEvent_cumDep]
        have := le_max_right (e.a - e.dN) (0 : Int)
        omega
      have hpref' : ∀ l1 l2, es = l1 ++ l2 → 0 ≤ (stepEvent st e).N + dNSum l1 := by
        intro l1 l2 h
        rw [stepEvent_N]
        have := hpref (e :: l1) l2 (by rw [h, List.cons_append])
        rw [dNSum_cons] at this
        omega
      have ihr := ih (stepEvent st e)
        (fun x hx => harr x (List.mem_cons_of_mem e hx)) hpref'
      simp only [processEvents, if_pos he]
      exact ⟨hA.trans ihr.1, harr1.trans ihr.2.1, hdep1.trans ihr.2.2.1, ihr.2.2.2⟩
    · simp only [processEvents, if_neg he]
      exact ⟨le_refl _, le_refl _, le_refl _, hpref⟩

/-- Every later reported row dominates the starting counters and area. -/
theorem runLoop_state_le : ∀ (ts : List ℚ) (t0 : ℚ) (evs : List Event) (st : SPState),
    (∀ e ∈ evs, 0 ≤ e.a) →
    (∀ l1 l2, evs = l1 ++ l2 → 0 ≤ st.N + dNSum l1) →
    ∀ m ∈ runLoop t0 ts evs st,
      st.cumArr ≤ m.arr ∧ st.cumDep ≤ m.dep ∧ st.A ≤ m.A := by
  intro ts
  induction ts with
  | nil =>
    intro t0 evs st _ _ m hm
    exact absurd hm (List.not_mem_nil m)
  | cons t ts' ih =>
    intro t0 evs st harr hpref m hm
    have hpm := processEvents_mono t evs st harr hpref
    have hN1 : 0 ≤ (processEvents evs t st).1.N := by
      simpa [dNSum] using hpm.2.2.2 [] (processEvents evs t st).2 rfl
    have hA2 : st.A ≤ (advance t (st, evs)).1.A := by
      rw [advance_fst]
      exact hpm.1.trans (stepTail_A_mono _ t hN1)
    have harr2 : st.cumArr ≤ (advance t (st, evs)).1.cumArr := by
      rw [advance_fst, (stepTail_counts _ _).2.1]
      exact hpm.2.1
    have hdep2 : st.cumDep ≤ (advance t (st, evs)).1.cumDep := by
      rw [advance_fst, (stepTail_counts _ _).2.2]
      exact hpm.2.2.1
    have harrR : ∀ x ∈ (advance t (st, evs)).2, 0 ≤ x.a := by
      intro x hx
      rw [advance_snd] at hx
      exact harr x ((processEvents_suffix t evs st).subset hx)
    have hprefR : ∀ l1 l2, (advance t (st, evs)).2 = l1 ++ l2 →
        0 ≤ (advance t (st, evs)).1.N + dNSum l1 := by
      intro l1 l2 h
      rw [advance_fst, (stepTail_counts _ _).1]
      exact hpm.2.2.2 l1 l2 (by rw [← advance_snd]; exact h)
    rw [runLoop_cons] at hm
    rcases List.mem_cons.mp hm with rfl | hm'
    · exact ⟨harr2, hdep2, hA2⟩
    · have hrec := ih t0 ((advance t (st, evs)).2) ((advance t (st, evs)).1)
        harrR hprefR m hm'
      exact ⟨harr2.trans hrec.1, hdep2.trans hrec.2.1, hA2.trans hrec.2.2⟩

/-- The reported rows form a chain that is non-decreasing in cumulative
arrivals, cumulative departures and area. -/
theorem runLoop_chain : ∀ (ts : List ℚ) (t0 : ℚ) (evs : List Event) (st : SPState),
    (∀ e ∈ evs, 0 ≤ e.a) →
    (∀ l1 l2, evs = l1 ++ l2 → 0 ≤ st.N + dNSum l1) →
    List.Chain' (fun m1 m2 => m1.arr ≤ m2.arr ∧ m1.dep ≤ m2.dep ∧ m1.A ≤ m2.A)
      (runLoop t0 ts evs st) := by
  intro ts
  induction ts with
  | nil => intro t0 evs st _ _; exact List.chain'_nil
  | cons t ts' ih =>
    intro t0 evs st harr hpref
    have hpm := processEvents_mono t evs st harr hpref
    have harrR : ∀ x ∈ (advance t (st, evs)).2, 0 ≤ x.a := by
      intro x hx
      rw [advance_snd] at hx
      exact harr x ((processEvents_suffix t evs st).subset hx)
    have hprefR : ∀ l1 l2, (advance t (st, evs)).2 = l1 ++ l2 →
        0 ≤ (advance t (st, evs)).1.N + dNSum l1 := by
      intro l1 l2 h
      rw [advance_fst, (stepTail_counts _ _).1]
      exact hpm.2.2.2 l1 l2 (by rw [← advance_snd]; exact h)
    rw [runLoop_cons]
    refine List.chain'_cons'.mpr ⟨?_, ih t0 _ _ harrR hprefR⟩
    intro m' hm'
    have hmem : m' ∈ runLoop t0 ts' ((advance t (st, evs)).2) ((advance t (st, evs)).1) :=
      List.mem_of_mem_head? hm'
    have := runLoop_state_le ts' t0 _ _ harrR hprefR m' hmem
    exact this

/-- Without any occupancy assumption, the event loop never decreases the
cumulative arrival and departure counters (arrival marks are non-negative,
clamped departures always are). -/
theorem processEvents_counts_mono (t : ℚ) : ∀ (evs : List Event) (st : SPState),
    (∀ e ∈ evs, 0 ≤ e.a) →
    st.cumArr ≤ (processEvents evs t st).1.cumArr ∧
    st.cumDep ≤ (processEvents evs t st).1.cumDep := by
  intro evs
  induction evs with
  | nil => intro st _; exact ⟨le_refl _, le_refl _⟩
  | cons e es ih =>
    intro st harr
    by_cases he : e.time ≤ t
    · have harr1 : st.cumArr ≤ (stepEvent st e).cumArr := by
        rw [stepEvent_cumArr]
        have := harr e (List.mem_cons_self e es)
        omega
      have hdep1 : st.cumDep ≤ (stepEvent st e).cumDep := by
        rw [stepEvent_cumDep]
        have := le_max_right (e.a - e.dN) (0 : Int)
        omega
      have ihr := ih (stepEvent st e) (fun x hx => harr x (List.mem_cons_of_mem e hx))
      simp only [processEvents, if_pos he]
      exact ⟨harr1.trans ihr.1, hdep1.trans ihr.2⟩
    · simp only [processEvents, if_neg he]
      exact ⟨le_refl _, le_refl _⟩

/-- Every reported row dominates the starting cumulative counters, with no
occupancy assumption. -/
theorem runLoop_counts_le : ∀ (ts : List ℚ) (t0 : ℚ) (evs : List Event) (st : SPState),
    (∀ e ∈ evs, 0 ≤ e.a) →
    ∀ m ∈ runLoop t0 ts evs st, st.cumArr ≤ m.arr ∧ st.cumDep ≤ m.dep := by
  intro ts
  induction ts with
  | nil =>
    intro t0 evs st _ m hm
    exact absurd hm (List.not_mem_nil m)
  | cons t ts' ih =>
    intro t0 evs st harr m hm
    have hpm := processEvents_counts_mono t evs st harr
    have harr2 : st.cumArr ≤ (advance t (st, evs)).1.cumArr := by
      rw [advance_fst, (stepTail_counts _ _).2.1]
      exact hpm.1
    have hdep2 : st.cumDep ≤ (advance t (st, evs)).1.cumDep := by
      rw [advance_fst, (stepTail_counts _ _).2.2]
      exact hpm.2
    have harrR : ∀ x ∈ (advance t (st, evs)).2, 0 ≤ x.a := by
      intro x hx
      rw [advance_snd] at hx
      exact harr x ((processEvents_suffix t evs st).subset hx)
    rw [runLoop_cons] at hm
    rcases List.mem_cons.mp hm with rfl | hm'
    · exact ⟨harr2, hdep2⟩
    · have hrec := ih t0 ((advance t (st, evs)).2) ((advance t (st, evs)).1) harrR m hm'
      exact ⟨harr2.trans hrec.1, hdep2.trans hrec.2⟩

/-- The reported rows are chain-wise non-decreasing in cumulative arrivals
and departures, with no occupancy assumption. -/
theorem runLoop_chain_counts : ∀ (ts : List ℚ) (t0 : ℚ) (evs : List Event) (st : SPState),
    (∀ e ∈ evs, 0 ≤ e.a) →
    List.Chain' (fun m1 m2 : Metrics => m1.arr ≤ m2.arr ∧ m1.dep ≤ m2.dep)
      (runLoop t0 ts evs st) := by
  intro ts
  induction ts with
  | nil => intro t0 evs st _; exact List.chain'_nil
  | cons t ts' ih =>
    intro t0 evs st harr
    have harrR : ∀ x ∈ (advance t (st, evs)).2, 0 ≤ x.a := by
      intro x hx
      rw [advance_snd] at hx
      exact harr x ((processEvents_suffix t evs st).subset hx)
    rw [runLoop_cons]
    refine List.chain'_cons'.mpr ⟨?_, ih t0 _ _ harrR⟩
    intro m' hm'
    have hmem : m' ∈ runLoop t0 ts' ((advance t (st, evs)).2) ((advance t (st, evs)).1) :=
      List.mem_of_mem_head? hm'
    exact runLoop_counts_le ts' t0 _ _ harrR m' hmem

/-- Claim C6 (amended): for a single Integrator invocation in which every
event has `arrival_mark ≥ 0` and `arrival_mark - delta_N ≥ 0`, the output
sequences of cumulative Arrivals and cumulative Departures are
non-decreasing over the sorted observation times; `A` is ADDITIONALLY
non-decreasing provided every prefix of the time-sorted events has a
non-negative `delta_N` total (i.e. the occupancy never goes negative).
The occupancy sequence `N` itself may decrease, and without the
prefix-non-negativity proviso `A` may decrease as well — see the
counterexample. -/
theorem c6_monotonicity (events : List Event) (ts T : List ℚ) (ms : List Metrics)
    (hyp1 : ∀ e ∈ events, 0 ≤ e.a ∧ 0 ≤ e.a - e.dN)
    (hres : compute_sample_path_metrics events ts = some (T, ms)) :
    List.Chain' (fun m1 m2 : Metrics => m1.arr ≤ m2.arr ∧ m1.dep ≤ m2.dep) ms ∧
    ((∀ l1 l2, sortEvents events = l1 ++ l2 → 0 ≤ dNSum l1) →
      List.Chain' (fun m1 m2 : Metrics => m1.A ≤ m2.A) ms) := by
  cases events with
  | nil =>
    simp [compute_sample_path_metrics] at hres
    rw [hres.2]
    exact ⟨List.chain'_nil, fun _ => List.chain'_nil⟩
  | cons e es =>
    cases hS : sortTimes ts with
    | nil => simp [compute_sample_path_metrics, hS] at hres
    | cons t0 rest =>
      simp only [compute_sample_path_metrics, List.isEmpty_cons, Bool.false_eq_true,
        if_false, hS, Option.some.injEq, Prod.mk.injEq] at hres
      rw [← hres.2]
      have harr : ∀ x ∈ sortEvents (e :: es), 0 ≤ x.a := fun x hx =>
        (hyp1 x ((sortEvents_perm (e :: es)).mem_iff.mp hx)).1
      constructor
      · exact runLoop_chain_counts (t0 :: rest) t0 (sortEvents (e :: es)) (initState t0) harr
      · intro hyp2
        have hchain := runLoop_chain (t0 :: rest) t0 (sortEvents (e :: es)) (initState t0)
          harr
          (by
            intro l1 l2 h
            have := hyp2 l1 l2 h
            show 0 ≤ (0 : Int) + dNSum l1
            omega)
        exact hchain.imp (fun _ _ h => h.2.2)

/-- Witness for C6: events `[(0,+2,2), (1,+1,1)]` (all marks and derived
departures non-negative, occupancy never negative), observation times
`[0, 1, 2]`. -/
theorem c6_monotonicity_witness :
    (∀ e ∈ ([⟨0, 2, 2⟩, ⟨1, 1, 1⟩] : List Event), 0 ≤ e.a ∧ 0 ≤ e.a - e.dN) ∧
    (List.Chain' (fun m1 m2 : Metrics => m1.arr ≤ m2.arr ∧ m1.dep ≤ m2.dep)
      ([⟨none, none, some 0, 2, 0, 2, 0⟩, ⟨some 2, some 3, some (2/3), 3, 2, 3, 0⟩,
        ⟨some (5/2), some (3/2), some (5/3), 3, 5, 3, 0⟩] : List Metrics) ∧
    ((∀ l1 l2, sortEvents [⟨0, 2, 2⟩, ⟨1, 1, 1⟩] = l1 ++ l2 → 0 ≤ dNSum l1) →
      List.Chain' (fun m1 m2 : Metrics => m1.A ≤ m2.A)
        ([⟨none, none, some 0, 2, 0, 2, 0⟩, ⟨some 2, some 3, some (2/3), 3, 2, 3, 0⟩,
          ⟨some (5/2), some (3/2), some (5/3), 3, 5, 3, 0⟩] : List Metrics))) := by
  have hres : compute_sample_path_metrics [⟨0, 2, 2⟩, ⟨1, 1, 1⟩] [0, 1, 2] =
      some ([0, 1, 2],
        [⟨none, none, some 0, 2, 0, 2, 0⟩, ⟨some 2, some 3, some (2/3), 3, 2, 3, 0⟩,
          ⟨some (5/2), some (3/2), some (5/3), 3, 5, 3, 0⟩]) := by
    norm_num [compute_sample_path_metrics, sortTimes, sortEvents, List.insertionSort,
      List.orderedInsert, runLoop, advance, processEvents, stepEvent, stepTail,
      report, initState]
  exact ⟨by decide,
    c6_monotonicity [⟨0, 2, 2⟩, ⟨1, 1, 1⟩] [0, 1, 2] [0, 1, 2] _ (by decide) hres⟩

/-- Counterexample to C6 as stated: events `[(0,+2,2), (1,-3,1)]` satisfy
the claim's per-event hypotheses (`a ≥ 0` and `a - dN ≥ 0` for both), yet
the reported occupancy sequence is `[2, -1, -1]` (it decreases) and the
reported area sequence is `[0, 2, 1]` (it decreases once the occupancy has
gone negative), so neither `N` nor `A` is non-decreasing. -/
theorem c6_counterexample :
    compute_sample_path_metrics [⟨0, 2, 2⟩, ⟨1, -3, 1⟩] [0, 1, 2] =
      some ([0, 1, 2],
        [⟨none, none, some 0, 2, 0, 2, 0⟩,
          ⟨some 2, some 3, some (2/3), -1, 2, 3, 4⟩,
          ⟨some (1/2), some (3/2), some (1/3), -1, 1, 3, 4⟩]) ∧
    (∀ e ∈ ([⟨0, 2, 2⟩, ⟨1, -3, 1⟩] : List Event), 0 ≤ e.a ∧ 0 ≤ e.a - e.dN) ∧
    ((-1 : Int) < 2) ∧ ((1 : ℚ) < 2) := by
  refine ⟨?_, by decide, by norm_num, by norm_num⟩
  norm_num [compute_sample_path_metrics, sortTimes, sortEvents, List.insertionSort,
    List.orderedInsert, runLoop, advance, processEvents, stepEvent, stepTail,
    report, initState]
